import Mathlib

/-!
Shallow embedding of `src/student_code.py`: a directed-graph hierarchy
(`VersatileDigraph`, `SortableDigraph.top_sort`, `TraversableDigraph.dfs`/`bfs`,
`DAG.add_edge`/`_has_path`).

Python dictionaries are modelled as insertion-ordered association lists
(`Dict`): assignment to an existing key updates the value in place, assignment
to a fresh key appends it.  Python numbers occurring in the program (node
values and edge weights) are only stored, retrieved and compared with `0`, so
they are carried as `Int`.  Python exceptions are modelled by `PyError`;
mutating methods return the post-call state together with an optional raised
error (a raised exception leaves the mutated object alive, which the model
keeps observable), and pure query methods return `Except PyError`.
-/

namespace StudentCode

/-- Insertion-ordered association list standing for a Python `dict` with
string keys. -/
abbrev Dict (α : Type) := List (String × α)

/-- `d[k]` as an `Option` (first binding wins). -/
def dget {α : Type} (k : String) : Dict α → Option α
  | [] => none
  | (k', v) :: d => if k' = k then some v else dget k d

/-- `d[k] = v`: update in place when the key exists, append otherwise. -/
def dinsert {α : Type} (k : String) (v : α) : Dict α → Dict α
  | [] => [(k, v)]
  | (k', v') :: d => if k' = k then (k, v) :: d else (k', v') :: dinsert k v d

/-- `list(d.keys())` in insertion order. -/
def dkeys {α : Type} (d : Dict α) : List String := d.map Prod.fst

/-- `k in d` (key membership test). -/
def dmemb {α : Type} (k : String) (d : Dict α) : Bool := (dget k d).isSome

/-- Python exceptions raised by the program. -/
inductive PyError : Type
  | typeError (msg : String)
  | valueError (msg : String)
  | keyError (msg : String)
deriving DecidableEq, Repr

/-- The `**vararg` keyword arguments accepted by `add_edge`.  A field is
`none`/default when the corresponding keyword is absent. -/
structure EdgeArgs where
  name : Option String := none
  weight : Option Int := none
  edge_weight : Option Int := none
  start_node_value : Int := 0
  end_node_value : Int := 0
deriving DecidableEq, Repr

/-- `vararg.get("edge_weight", vararg.get("weight", 0))`. -/
def EdgeArgs.effWeight (a : EdgeArgs) : Int := a.edge_weight.getD (a.weight.getD 0)

/-- The state of a `VersatileDigraph` object: its four instance dictionaries,
in the order `__init__` creates them. -/
structure VersatileDigraph where
  edge_weights : Dict (Dict Int)
  edge_names : Dict (Dict String)
  edge_head : Dict (Dict String)
  node_values : Dict Int
deriving DecidableEq, Repr

namespace VersatileDigraph

/-- The freshly constructed `VersatileDigraph()`. -/
def emptyGraph : VersatileDigraph := ⟨[], [], [], []⟩

/-- `get_nodes`: the node identifiers in insertion order. -/
def get_nodes (g : VersatileDigraph) : List String := dkeys g.node_values

/-- `d[k]` for an outer dictionary whose key `k` is guaranteed present
(`add_node` populates all four dictionaries with the same keys); reading an
absent key as `[]` is unreachable from the constructor. -/
def innerD {α : Type} (k : String) (d : Dict (Dict α)) : Dict α := (dget k d).getD []

/-- `add_node`: inserts or overwrites a node and resets its three outgoing
tables.  The `isinstance` checks cannot fire in the embedding, where the id is
a `String` and the value an `Int` by type. -/
def add_node (g : VersatileDigraph) (node_id : String) (node_value : Int := 0) :
    VersatileDigraph :=
  { node_values := dinsert node_id node_value g.node_values
    edge_weights := dinsert node_id [] g.edge_weights
    edge_names := dinsert node_id [] g.edge_names
    edge_head := dinsert node_id [] g.edge_head }

/-- `add_edge`: auto-creates missing endpoints, records the edge name and head,
then validates the weight — recording the weight on success and raising
`ValueError` on a negative weight (after the name/head tables were already
written). -/
def add_edge (g : VersatileDigraph) (tail head : String) (a : EdgeArgs := {}) :
    VersatileDigraph × Option PyError :=
  let g1 := if tail ∈ g.get_nodes then g else g.add_node tail a.start_node_value
  let g2 := if head ∈ g1.get_nodes then g1 else g1.add_node head a.end_node_value
  let edge_name := a.name.getD (tail ++ " to " ++ head)
  let g3 : VersatileDigraph :=
    { g2 with
      edge_names := dinsert tail (dinsert head edge_name (innerD tail g2.edge_names))
        g2.edge_names
      edge_head := dinsert tail (dinsert head head (innerD tail g2.edge_head))
        g2.edge_head }
  if 0 ≤ a.effWeight then
    ({ g3 with
        edge_weights := dinsert tail (dinsert head a.effWeight (innerD tail g3.edge_weights))
          g3.edge_weights }, none)
  else
    (g3, some (PyError.valueError "Edge weight must be positive."))

/-- `get_edge_weight`. -/
def get_edge_weight (g : VersatileDigraph) (tail head : String) : Except PyError Int :=
  if tail ∉ g.get_nodes then
    .error (.keyError ("Node " ++ tail ++ " is not present in the graph."))
  else if head ∉ g.get_nodes then
    .error (.keyError ("Node " ++ head ++ " is not present in the graph."))
  else
    match dget head (innerD tail g.edge_weights) with
    | some w => .ok w
    | none => .error (.keyError "The specified edge does not exist in the graph")

/-- `get_node_value`. -/
def get_node_value (g : VersatileDigraph) (node : String) : Except PyError Int :=
  if node ∉ g.get_nodes then
    .error (.keyError ("Node " ++ node ++ " is not present in the graph."))
  else
    .ok ((dget node g.node_values).getD 0)

/-- The keys of `_edge_names[node]`: the successor list `successors` returns
when `node` is present. -/
def succList (g : VersatileDigraph) (node : String) : List String :=
  dkeys (innerD node g.edge_names)

/-- `successors`. -/
def successors (g : VersatileDigraph) (node : String) : Except PyError (List String) :=
  if node ∈ g.get_nodes then .ok (g.succList node)
  else .error (.keyError ("Node " ++ node ++ " is not present in the graph."))

/-- The list comprehension inside `predecessors`. -/
def predList (g : VersatileDigraph) (node : String) : List String :=
  g.get_nodes.filter (fun n => dmemb node (innerD n g.edge_names))

/-- `predecessors`. -/
def predecessors (g : VersatileDigraph) (node : String) : Except PyError (List String) :=
  if node ∈ g.get_nodes then .ok (g.predList node)
  else .error (.keyError ("Node " ++ node ++ " is not present in the graph."))

/-- `in_degree`. -/
def in_degree (g : VersatileDigraph) (node : String) : Except PyError Nat :=
  if node ∈ g.get_nodes then (g.predecessors node).map List.length
  else .error (.keyError ("Node " ++ node ++ " is not present in the graph."))

/-- `out_degree`. -/
def out_degree (g : VersatileDigraph) (node : String) : Except PyError Nat :=
  if node ∈ g.get_nodes then (g.successors node).map List.length
  else .error (.keyError ("Node " ++ node ++ " is not present in the graph."))

end VersatileDigraph

open VersatileDigraph

namespace SortableDigraph

/-- The body of the inner `for neighbor in self.successors(node)` loop of
`top_sort`: decrement the neighbour's running in-degree (a missing dictionary
key would raise `KeyError`, as in Python) and enqueue it when the counter
reaches zero. -/
def topDecr (iq : Dict Int × List String) (v : String) :
    Except PyError (Dict Int × List String) :=
  match dget v iq.1 with
  | none => .error (.keyError v)
  | some d =>
    .ok (dinsert v (d - 1) iq.1, if d - 1 = 0 then iq.2 ++ [v] else iq.2)

/-- The `while queue:` loop of `top_sort`.  The loop is fuelled; under the
well-formedness invariant each node is enqueued at most once, so the fuel
`top_sort` supplies is never exhausted (proved below). -/
def topLoop (g : VersatileDigraph) :
    Nat → Dict Int → List String → List String → Except PyError (List String)
  | _, _, [], result => .ok result
  | 0, _, _ :: _, _ => .error (.keyError "fuel exhausted")
  | fuel+1, indeg, node :: queue, result => do
    let succs ← g.successors node
    let iq ← succs.foldlM topDecr (indeg, queue)
    topLoop g fuel iq.1 iq.2 (result ++ [node])

/-- `top_sort`: Kahn's algorithm over the stored graph. -/
def top_sort (g : VersatileDigraph) : Except PyError (List String) := do
  let indeg ← g.get_nodes.foldlM
    (fun d n => do
      let k ← g.in_degree n
      pure (dinsert n (k : Int) d)) ([] : Dict Int)
  let queue := g.get_nodes.filter (fun n => dget n indeg == some 0)
  let result ← topLoop g (g.get_nodes.length + 1) indeg queue []
  if result.length ≠ g.get_nodes.length then
    .error (.valueError "Graph has at least one cycle, topological sort not possible")
  else
    pure result

end SortableDigraph

namespace TraversableDigraph

/-- The nested `recursive_dfs` of `dfs`, acting on the pair
(`visited`, `result`).  Recursion depth is fuelled; `dfs` supplies fuel that is
never exhausted when the start node is present (proved below). -/
def dfsVisit (g : VersatileDigraph) (start : String) :
    Nat → String → List String × List String →
    Except PyError (List String × List String)
  | 0, _, _ => .error (.keyError "fuel exhausted")
  | fuel+1, node, vr =>
    if node ∈ vr.1 then .ok vr
    else
      let visited := node :: vr.1
      let result := if node ≠ start then vr.2 ++ [node] else vr.2
      do
        let succs ← g.successors node
        succs.foldlM (fun vr' n => dfsVisit g start fuel n vr') (visited, result)

/-- `dfs` launched from an explicit start node. -/
def dfsFrom (g : VersatileDigraph) (start : String) : Except PyError (List String) := do
  let vr ← dfsVisit g start (g.get_nodes.length + 1) start ([], [])
  pure vr.2

/-- `dfs`: pre-order depth-first traversal, the start node itself excluded
from the result. -/
def dfs (g : VersatileDigraph) (start : Option String := none) :
    Except PyError (List String) :=
  match start with
  | none =>
    match g.get_nodes with
    | [] => .ok []
    | n :: _ => dfsFrom g n
  | some s => dfsFrom g s

/-- One `if neighbor not in visited` step of `bfs`, acting on the triple
(`visited`, `queue`, emitted output). -/
def bfsStep (st : List String × List String × List String) (n : String) :
    List String × List String × List String :=
  if n ∈ st.1 then st else (n :: st.1, st.2.1 ++ [n], st.2.2 ++ [n])

/-- The `while queue:` loop of `bfs` (fuelled; the fuel supplied by `bfs` is
never exhausted when the start node is present, proved below). -/
def bfsLoop (g : VersatileDigraph) :
    Nat → List String × List String × List String → Except PyError (List String)
  | _, (_, [], out) => .ok out
  | 0, (_, _ :: _, _) => .error (.keyError "fuel exhausted")
  | fuel+1, (visited, node :: queue, out) => do
    let succs ← g.successors node
    bfsLoop g fuel (succs.foldl bfsStep (visited, queue, out))

/-- `bfs` launched from an explicit start node.  The generator is modelled by
the full finite list of the values it yields, in order; an exception raised
during production surfaces as the `Except` error. -/
def bfsFrom (g : VersatileDigraph) (start : String) : Except PyError (List String) := do
  let succs ← g.successors start
  bfsLoop g (g.get_nodes.length + 1) (succs.foldl bfsStep ([], [], []))

/-- `bfs`: breadth-first traversal, emitting each node when first enqueued;
the start node is seeded into neither `visited` nor the queue. -/
def bfs (g : VersatileDigraph) (start : Option String := none) :
    Except PyError (List String) :=
  match start with
  | none =>
    match g.get_nodes with
    | [] => .ok []
    | n :: _ => bfsFrom g n
  | some s => bfsFrom g s

end TraversableDigraph

namespace DAG

/-- The `for neighbor in self.successors(current)` scan of `_has_path`:
returns `true` as soon as the target is seen, otherwise the enlarged
(`visited`, `queue`) pair. -/
def hpScan (target : String) :
    List String → List String × List String → Bool × List String × List String
  | [], vq => (false, vq.1, vq.2)
  | n :: rest, vq =>
    if n = target then (true, vq.1, vq.2)
    else if n ∈ vq.1 then hpScan target rest vq
    else hpScan target rest (vq.1 ++ [n], vq.2 ++ [n])

/-- The `while queue:` loop of `_has_path` (fuelled; the fuel supplied below
is never exhausted when the search start is present, proved below). -/
def hpLoop (g : VersatileDigraph) (target : String) :
    Nat → List String → List String → Except PyError Bool
  | _, _, [] => .ok false
  | 0, _, _ :: _ => .error (.keyError "fuel exhausted")
  | fuel+1, visited, current :: queue => do
    let succs ← g.successors current
    match hpScan target succs (visited, queue) with
    | (true, _, _) => .ok true
    | (false, visited', queue') => hpLoop g target fuel visited' queue'

/-- `_has_path`: breadth-first reachability from `start` to `target`. -/
def has_path (g : VersatileDigraph) (start target : String) : Except PyError Bool :=
  if start = target then .ok true
  else hpLoop g target (g.get_nodes.length + 1) [start] [start]

/-- `DAG.add_edge`: rejects the edge when a path from `head` back to `tail`
already exists, otherwise delegates to the base-class insertion.  An exception
raised inside `_has_path` propagates with the graph untouched. -/
def add_edge (g : VersatileDigraph) (tail head : String) (a : EdgeArgs := {}) :
    VersatileDigraph × Option PyError :=
  match has_path g head tail with
  | .error e => (g, some e)
  | .ok true =>
    (g, some (.valueError
      ("Adding edge from " ++ tail ++ " to " ++ head ++ " would create a cycle")))
  | .ok false => VersatileDigraph.add_edge g tail head a

end DAG

/-! ### Derived notions used by the verification: well-formed state, the
edge relation, reachability, operation sequences, and concrete example
graphs. -/

/-! ### Well-formedness

`WF g` collects the facts that hold for every graph state reachable from the
constructor: the four dictionaries share their key list (in order), node keys
are unique, successor lists are duplicate-free, and every recorded successor
is itself a node.  It is a plain conjunction of decidable statements so that
concrete instances can be discharged by `decide`. -/

def WF (g : VersatileDigraph) : Prop :=
  dkeys g.edge_weights = g.get_nodes ∧
  dkeys g.edge_names = g.get_nodes ∧
  dkeys g.edge_head = g.get_nodes ∧
  g.get_nodes.Nodup ∧
  (∀ n ∈ g.get_nodes, (succList g n).Nodup) ∧
  (∀ n ∈ g.get_nodes, ∀ v ∈ succList g n, v ∈ g.get_nodes)

instance (g : VersatileDigraph) : Decidable (WF g) := by
  unfold WF
  infer_instance

/-- The intermediate state reached inside `add_edge` after its two
auto-creation conditionals (the local variables the source reads as
`self` after the two `if ... not in self.get_nodes()` blocks). -/
def VersatileDigraph.autoCreated (g : VersatileDigraph) (t hd : String) (a : EdgeArgs) : VersatileDigraph :=
  let g1 := if t ∈ g.get_nodes then g else g.add_node t a.start_node_value
  if hd ∈ g1.get_nodes then g1 else g1.add_node hd a.end_node_value

/-- `hasEdge g u v`: the graph records an edge from `u` to `v` (membership of
`v` in `u`'s successor list, the relation every traversal reads). -/
def hasEdge (g : VersatileDigraph) (u v : String) : Prop := v ∈ succList g u

instance (g : VersatileDigraph) (u v : String) : Decidable (hasEdge g u v) :=
  inferInstanceAs (Decidable (v ∈ succList g u))

/-- Reflexive-transitive closure of `hasEdge`: `v` can be reached from `u` by
following zero or more recorded edges. -/
inductive Reaches (g : VersatileDigraph) : String → String → Prop
  | refl (a : String) : Reaches g a a
  | step {a b c : String} : hasEdge g a b → Reaches g b c → Reaches g a c

/-- The graph is acyclic: no recorded edge is closed back by a path. -/
def Acyclic (g : VersatileDigraph) : Prop :=
  ∀ u v, hasEdge g u v → ¬ Reaches g v u

/-- A mutating call of the graph API: `add_node(id, value)` or
`add_edge(tail, head, **vararg)`. -/
inductive Op : Type
  | node (id : String) (value : Int)
  | edge (tail head : String) (a : EdgeArgs)
deriving DecidableEq, Repr

/-- Apply one operation through the base class `VersatileDigraph`. -/
def applyBase (g : VersatileDigraph) : Op → VersatileDigraph × Option PyError
  | .node i v => (g.add_node i v, none)
  | .edge t hd a => g.add_edge t hd a

/-- Run a sequence of base-class operations.  As in Python, an operation that
raises still leaves its (possibly partial) mutation behind. -/
def runBase (g : VersatileDigraph) : List Op → VersatileDigraph
  | [] => g
  | op :: rest => runBase (applyBase g op).1 rest

/-- Every operation of the sequence, run through the base class, succeeds. -/
def baseOk (g : VersatileDigraph) : List Op → Bool
  | [] => true
  | op :: rest => ((applyBase g op).2 == none) && baseOk (applyBase g op).1 rest

/-- Apply one operation through the `DAG` subclass (its overridden
`add_edge`). -/
def applyDAG (g : VersatileDigraph) : Op → VersatileDigraph × Option PyError
  | .node i v => (g.add_node i v, none)
  | .edge t hd a => DAG.add_edge g t hd a

/-- Run a sequence of operations on a `DAG` object. -/
def runDAG (g : VersatileDigraph) : List Op → VersatileDigraph
  | [] => g
  | op :: rest => runDAG (applyDAG g op).1 rest

/-- Two nodes with edges both ways: `A → B → A`. -/
def gCycleAB : VersatileDigraph :=
  ((VersatileDigraph.emptyGraph.add_edge "A" "B").1.add_edge "B" "A").1

/-- The diamond DAG `A → B, A → C, B → D, C → D`. -/
def gDiamond : VersatileDigraph :=
  ((((VersatileDigraph.emptyGraph.add_edge "A" "B").1.add_edge "A" "C").1.add_edge
    "B" "D").1.add_edge "C" "D").1

/-- The one-edge graph `A → B`. -/
def gAB : VersatileDigraph := (VersatileDigraph.emptyGraph.add_edge "A" "B").1

/-- The keyword arguments `weight=-1`. -/
def negWeightArgs : EdgeArgs := { weight := some (-1) }

/-- The traversal order the specification words for `dfs`, written from the
spec's description rather than from the code, so that the ordering clause of
the traversal contract can be stated as an equality with the code's output:
a *pre-order* visit in which a node not yet visited is emitted first and its
successors are then explored in outgoing-edge insertion order, while an
already-visited node contributes nothing.  The state is (visited set, emitted
sequence); the start node is *not* special-cased here — the contract's "start
excluded" clause is expressed by filtering `specPreorder` afterwards.
(Recursion depth is fuelled exactly as in `dfsVisit`.) -/
def specPreorderVisit (g : VersatileDigraph) :
    Nat → String → List String × List String → List String × List String
  | 0, _, vr => vr
  | fuel+1, node, vr =>
    if node ∈ vr.1 then vr
    else
      (succList g node).foldl (fun vr' n => specPreorderVisit g fuel n vr')
        (node :: vr.1, vr.2 ++ [node])

/-- The spec's pre-order visit sequence from a start node: on the diamond
graph from `"A"` it is `["A", "B", "D", "C"]` (depth first), not the
breadth-first `["A", "B", "C", "D"]`. -/
def specPreorder (g : VersatileDigraph) (start : String) : List String :=
  (specPreorderVisit g (g.get_nodes.length + 1) start ([], [])).2

instance {ε α : Type} [DecidableEq ε] [DecidableEq α] : DecidableEq (Except ε α) := by
  intro x y
  cases x <;> cases y
  case error.error e f =>
    exact if h : e = f then .isTrue (by rw [h]) else .isFalse (by simp [h])
  case ok.ok a b =>
    exact if h : a = b then .isTrue (by rw [h]) else .isFalse (by simp [h])
  case error.ok e a => exact .isFalse (by simp)
  case ok.error a e => exact .isFalse (by simp)

/-! ### Dictionary lemmas -/

theorem dget_dinsert_self {α : Type} (k : String) (v : α) (d : Dict α) :
    dget k (dinsert k v d) = some v := by
  induction d with
  | nil => simp [dinsert, dget]
  | cons p d ih =>
    obtain ⟨k', v'⟩ := p
    by_cases hk : k' = k
    · simp [dinsert, hk, dget]
    · simp [dinsert, hk, dget, ih]

theorem dget_dinsert_ne {α : Type} {x k : String} (hx : x ≠ k) (v : α) (d : Dict α) :
    dget x (dinsert k v d) = dget x d := by
  have hk' : k ≠ x := Ne.symm hx
  induction d with
  | nil => simp [dinsert, dget, hk']
  | cons p d ih =>
    obtain ⟨k', v'⟩ := p
    by_cases hkk : k' = k
    · subst hkk
      simp [dinsert, dget, hk']
    · simp [dinsert, hkk, dget, ih]

theorem dget_eq_none_iff {α : Type} (k : String) (d : Dict α) :
    dget k d = none ↔ k ∉ dkeys d := by
  induction d with
  | nil => simp [dget, dkeys]
  | cons p d ih =>
    obtain ⟨k', v'⟩ := p
    by_cases hk : k' = k
    · subst hk
      simp [dget, dkeys]
    · have hks : k ≠ k' := fun h => hk h.symm
      simp [dget, dkeys, hk, ih, hks]

theorem dget_isSome_iff {α : Type} (k : String) (d : Dict α) :
    (dget k d).isSome = true ↔ k ∈ dkeys d := by
  rw [Option.isSome_iff_ne_none, ne_eq, dget_eq_none_iff]
  exact not_not

theorem dmemb_iff {α : Type} (k : String) (d : Dict α) :
    dmemb k d = true ↔ k ∈ dkeys d := dget_isSome_iff k d

theorem dkeys_dinsert {α : Type} (k : String) (v : α) (d : Dict α) :
    dkeys (dinsert k v d) = if k ∈ dkeys d then dkeys d else dkeys d ++ [k] := by
  induction d with
  | nil => simp [dinsert, dkeys]
  | cons p d ih =>
    obtain ⟨k', v'⟩ := p
    by_cases hk : k' = k
    · simp [dinsert, hk, dkeys]
    · have hks : k ≠ k' := fun h => hk h.symm
      simp only [dinsert, if_neg hk, dkeys, List.map_cons] at ih ⊢
      rw [ih]
      by_cases hmem : k ∈ List.map Prod.fst d <;>
        simp [hmem, List.mem_cons, hks]

theorem mem_dkeys_dinsert {α : Type} (x k : String) (v : α) (d : Dict α) :
    x ∈ dkeys (dinsert k v d) ↔ x ∈ dkeys d ∨ x = k := by
  rw [dkeys_dinsert]
  by_cases hmem : k ∈ dkeys d
  · simp only [if_pos hmem]
    constructor
    · exact Or.inl
    · rintro (h | rfl)
      · exact h
      · exact hmem
  · simp [if_neg hmem]

theorem nodup_dkeys_dinsert {α : Type} {d : Dict α} (k : String) (v : α)
    (hd : (dkeys d).Nodup) : (dkeys (dinsert k v d)).Nodup := by
  rw [dkeys_dinsert]
  by_cases hmem : k ∈ dkeys d
  · simpa [hmem] using hd
  · rw [if_neg hmem]
    exact List.Nodup.append hd (List.nodup_singleton k) (by simp [List.disjoint_singleton, hmem])

theorem WF.nodes_nodup {g : VersatileDigraph} (h : WF g) : g.get_nodes.Nodup :=
  h.2.2.2.1

theorem succList_of_not_mem {g : VersatileDigraph} (h : WF g) {n : String}
    (hn : n ∉ g.get_nodes) : succList g n = [] := by
  have : dget n g.edge_names = none := by
    rw [dget_eq_none_iff, h.2.1]
    exact hn
  simp [succList, innerD, this, dkeys]

theorem WF.succ_nodup {g : VersatileDigraph} (h : WF g) (n : String) :
    (succList g n).Nodup := by
  by_cases hn : n ∈ g.get_nodes
  · exact h.2.2.2.2.1 n hn
  · simp [succList_of_not_mem h hn]

theorem WF.succ_mem {g : VersatileDigraph} (h : WF g) {n v : String}
    (hv : v ∈ succList g n) : v ∈ g.get_nodes := by
  by_cases hn : n ∈ g.get_nodes
  · exact h.2.2.2.2.2 n hn v hv
  · simp [succList_of_not_mem h hn] at hv

theorem WF.tail_mem {g : VersatileDigraph} (h : WF g) {n v : String}
    (hv : v ∈ succList g n) : n ∈ g.get_nodes := by
  by_cases hn : n ∈ g.get_nodes
  · exact hn
  · simp [succList_of_not_mem h hn] at hv

theorem wf_emptyGraph : WF VersatileDigraph.emptyGraph :=
  ⟨rfl, rfl, rfl, List.nodup_nil,
    by simp [VersatileDigraph.get_nodes, VersatileDigraph.emptyGraph, dkeys],
    by simp [VersatileDigraph.get_nodes, VersatileDigraph.emptyGraph, dkeys]⟩

/-! ### Effect of `add_node` and `add_edge` on the observable state -/

namespace VersatileDigraph

theorem get_nodes_add_node (g : VersatileDigraph) (i : String) (v : Int) :
    (g.add_node i v).get_nodes =
      if i ∈ g.get_nodes then g.get_nodes else g.get_nodes ++ [i] := by
  simp [add_node, get_nodes, dkeys_dinsert]

theorem mem_get_nodes_add_node (g : VersatileDigraph) (i x : String) (v : Int) :
    x ∈ (g.add_node i v).get_nodes ↔ x ∈ g.get_nodes ∨ x = i := by
  simp only [add_node, get_nodes]
  exact mem_dkeys_dinsert x i v g.node_values

theorem succList_add_node (g : VersatileDigraph) (i n : String) (v : Int) :
    succList (g.add_node i v) n = if n = i then [] else succList g n := by
  by_cases hn : n = i
  · subst hn
    simp [add_node, succList, innerD, dget_dinsert_self, dkeys]
  · simp [add_node, succList, innerD, dget_dinsert_ne hn, hn]

theorem dget_node_values_add_node (g : VersatileDigraph) (i n : String) (v : Int) :
    dget n (g.add_node i v).node_values = if n = i then some v else dget n g.node_values := by
  by_cases hn : n = i
  · subst hn
    simp [add_node, dget_dinsert_self]
  · simp [add_node, dget_dinsert_ne hn, hn]

theorem wf_add_node {g : VersatileDigraph} (h : WF g) (i : String) (v : Int) :
    WF (g.add_node i v) := by
  have hkeys : ∀ (α : Type) (d : Dict (Dict α)), dkeys d = g.get_nodes →
      dkeys (dinsert i ([] : Dict α) d) = (g.add_node i v).get_nodes := by
    intro α d hd
    rw [dkeys_dinsert, hd, get_nodes_add_node]
  refine ⟨hkeys Int g.edge_weights h.1, hkeys String g.edge_names h.2.1,
    hkeys String g.edge_head h.2.2.1, ?_, ?_, ?_⟩
  · rw [get_nodes_add_node]
    by_cases hmem : i ∈ g.get_nodes
    · simpa [hmem] using h.nodes_nodup
    · rw [if_neg hmem]
      exact List.Nodup.append h.nodes_nodup (List.nodup_singleton i)
        (by simp [List.disjoint_singleton, hmem])
  · intro n _
    rw [succList_add_node]
    by_cases hni : n = i
    · simp [hni]
    · rw [if_neg hni]
      exact h.succ_nodup n
  · intro n _ x hx
    rw [succList_add_node] at hx
    by_cases hni : n = i
    · simp [hni] at hx
    · rw [if_neg hni] at hx
      rw [mem_get_nodes_add_node]
      exact Or.inl (h.succ_mem hx)

theorem add_edge_fst_node_values (g : VersatileDigraph) (t hd : String) (a : EdgeArgs) :
    (g.add_edge t hd a).1.node_values = (autoCreated g t hd a).node_values := by
  by_cases hw : 0 ≤ a.effWeight <;> simp [add_edge, autoCreated, hw]

theorem add_edge_fst_edge_names (g : VersatileDigraph) (t hd : String) (a : EdgeArgs) :
    (g.add_edge t hd a).1.edge_names =
      dinsert t (dinsert hd (a.name.getD (t ++ " to " ++ hd))
        (innerD t (autoCreated g t hd a).edge_names)) (autoCreated g t hd a).edge_names := by
  by_cases hw : 0 ≤ a.effWeight <;> simp [add_edge, autoCreated, hw]

theorem add_edge_fst_edge_weights (g : VersatileDigraph) (t hd : String) (a : EdgeArgs) :
    (g.add_edge t hd a).1.edge_weights =
      if 0 ≤ a.effWeight then
        dinsert t (dinsert hd a.effWeight (innerD t (autoCreated g t hd a).edge_weights))
          (autoCreated g t hd a).edge_weights
      else (autoCreated g t hd a).edge_weights := by
  by_cases hw : 0 ≤ a.effWeight <;> simp [add_edge, autoCreated, hw]

theorem add_edge_snd (g : VersatileDigraph) (t hd : String) (a : EdgeArgs) :
    (g.add_edge t hd a).2 =
      if 0 ≤ a.effWeight then none
      else some (PyError.valueError "Edge weight must be positive.") := by
  by_cases hw : 0 ≤ a.effWeight <;> simp [add_edge, hw]

theorem mem_get_nodes_autoCreated (g : VersatileDigraph) (t hd x : String) (a : EdgeArgs) :
    x ∈ (autoCreated g t hd a).get_nodes ↔ x ∈ g.get_nodes ∨ x = t ∨ x = hd := by
  have h1 : ∀ y, (y ∈ (if t ∈ g.get_nodes then g else g.add_node t a.start_node_value).get_nodes
      ↔ y ∈ g.get_nodes ∨ y = t) := by
    intro y
    split
    · rename_i ht
      constructor
      · exact Or.inl
      · rintro (hy | rfl)
        · exact hy
        · exact ht
    · rw [mem_get_nodes_add_node]
  simp only [autoCreated]
  set g1 := if t ∈ g.get_nodes then g else g.add_node t a.start_node_value with hg1
  split
  · rename_i hh
    rw [h1]
    constructor
    · rintro (hy | rfl)
      · exact Or.inl hy
      · exact Or.inr (Or.inl rfl)
    · rintro (hy | rfl | rfl)
      · exact Or.inl hy
      · exact Or.inr rfl
      · exact (h1 x).mp hh
  · rw [mem_get_nodes_add_node, h1]
    constructor
    · rintro ((hy | rfl) | rfl)
      · exact Or.inl hy
      · exact Or.inr (Or.inl rfl)
      · exact Or.inr (Or.inr rfl)
    · rintro (hy | rfl | rfl)
      · exact Or.inl (Or.inl hy)
      · exact Or.inl (Or.inr rfl)
      · exact Or.inr rfl

theorem get_nodes_add_edge_eq (g : VersatileDigraph) (t hd : String) (a : EdgeArgs) :
    (g.add_edge t hd a).1.get_nodes = (autoCreated g t hd a).get_nodes := by
  simp [get_nodes, add_edge_fst_node_values]

theorem mem_get_nodes_add_edge (g : VersatileDigraph) (t hd x : String) (a : EdgeArgs) :
    x ∈ (g.add_edge t hd a).1.get_nodes ↔ x ∈ g.get_nodes ∨ x = t ∨ x = hd := by
  rw [get_nodes_add_edge_eq]
  exact mem_get_nodes_autoCreated g t hd x a

theorem get_nodes_subset_autoCreated (g : VersatileDigraph) (t hd : String) (a : EdgeArgs) :
    ∀ x ∈ g.get_nodes, x ∈ (autoCreated g t hd a).get_nodes := by
  intro x hx
  rw [mem_get_nodes_autoCreated]
  exact Or.inl hx

theorem wf_autoCreated {g : VersatileDigraph} (h : WF g) (t hd : String) (a : EdgeArgs) :
    WF (autoCreated g t hd a) := by
  simp only [autoCreated]
  set g1 := if t ∈ g.get_nodes then g else g.add_node t a.start_node_value with hg1
  have h1 : WF g1 := by
    rw [hg1]
    split
    · exact h
    · exact wf_add_node h t a.start_node_value
  split
  · exact h1
  · exact wf_add_node h1 hd a.end_node_value

/-- Auto-creation inside `add_edge` only ever adds fresh nodes with empty
successor tables, so it does not change any successor list. -/
theorem succList_autoCreated {g : VersatileDigraph} (h : WF g) (t hd n : String) (a : EdgeArgs) :
    succList (autoCreated g t hd a) n = succList g n := by
  simp only [autoCreated]
  set g1 := if t ∈ g.get_nodes then g else g.add_node t a.start_node_value with hg1
  have h1 : WF g1 := by
    rw [hg1]
    split
    · exact h
    · exact wf_add_node h t a.start_node_value
  have hs1 : succList g1 n = succList g n := by
    rw [hg1]
    split
    · rfl
    · rename_i ht
      rw [succList_add_node]
      split
      · rename_i hn
        subst hn
        exact (succList_of_not_mem h ht).symm
      · rfl
  split
  · exact hs1
  · rename_i hh
    rw [succList_add_node]
    split
    · rename_i hn
      subst hn
      by_cases hng : n ∈ g.get_nodes
      · exact absurd (by rw [hg1]; split <;> [exact hng; exact (mem_get_nodes_add_node g t n a.start_node_value).mpr (Or.inl hng)]) hh
      · exact (succList_of_not_mem h hng).symm
    · exact hs1

/-- The successor list after `add_edge` (whether or not the weight check then
fails): the head is appended to the tail's successors unless already present;
all other successor lists are untouched. -/
theorem succList_add_edge {g : VersatileDigraph} (h : WF g) (t hd n : String) (a : EdgeArgs) :
    succList (g.add_edge t hd a).1 n =
      if n = t then
        (if hd ∈ succList g t then succList g t else succList g t ++ [hd])
      else succList g n := by
  have hnames := add_edge_fst_edge_names g t hd a
  have hac := fun m => succList_autoCreated h t hd m a
  by_cases hn : n = t
  · subst hn
    rw [if_pos rfl]
    simp only [succList, innerD, hnames, dget_dinsert_self, Option.getD_some]
    rw [dkeys_dinsert]
    have : dkeys ((dget n (autoCreated g n hd a).edge_names).getD []) = succList g n := hac n
    simp only [succList, innerD] at this
    rw [this]
  · rw [if_neg hn]
    simp only [succList, innerD, hnames, dget_dinsert_ne hn]
    exact hac n

theorem wf_add_edge {g : VersatileDigraph} (h : WF g) (t hd : String) (a : EdgeArgs) :
    WF (g.add_edge t hd a).1 := by
  have hac : WF (autoCreated g t hd a) := wf_autoCreated h t hd a
  have htm : t ∈ (autoCreated g t hd a).get_nodes := by
    rw [mem_get_nodes_autoCreated]
    exact Or.inr (Or.inl rfl)
  have hhm : hd ∈ (autoCreated g t hd a).get_nodes := by
    rw [mem_get_nodes_autoCreated]
    exact Or.inr (Or.inr rfl)
  have hnodes := get_nodes_add_edge_eq g t hd a
  have hkeysw : dkeys (g.add_edge t hd a).1.edge_weights = (g.add_edge t hd a).1.get_nodes := by
    rw [hnodes, add_edge_fst_edge_weights]
    split
    · rw [dkeys_dinsert, hac.1, if_pos htm]
    · exact hac.1
  have hkeysn : dkeys (g.add_edge t hd a).1.edge_names = (g.add_edge t hd a).1.get_nodes := by
    rw [hnodes, add_edge_fst_edge_names, dkeys_dinsert, hac.2.1, if_pos htm]
  have hkeysh : dkeys (g.add_edge t hd a).1.edge_head = (g.add_edge t hd a).1.get_nodes := by
    have : (g.add_edge t hd a).1.edge_head =
        dinsert t (dinsert hd hd (innerD t (autoCreated g t hd a).edge_head))
          (autoCreated g t hd a).edge_head := by
      by_cases hw : 0 ≤ a.effWeight <;> simp [add_edge, autoCreated, hw]
    rw [hnodes, this, dkeys_dinsert, hac.2.2.1, if_pos htm]
  refine ⟨hkeysw, hkeysn, hkeysh, ?_, ?_, ?_⟩
  · rw [hnodes]
    exact hac.nodes_nodup
  · intro n _
    rw [succList_add_edge h]
    split
    · split
      · exact h.succ_nodup t
      · rename_i hmem
        exact List.Nodup.append (h.succ_nodup t) (List.nodup_singleton hd)
          (by simp [List.disjoint_singleton, hmem])
    · exact h.succ_nodup n
  · intro n _ x hx
    rw [succList_add_edge h] at hx
    rw [mem_get_nodes_add_edge]
    have hmem : ∀ y, y ∈ succList g t → y ∈ g.get_nodes ∨ y = t ∨ y = hd :=
      fun y hy => Or.inl (h.succ_mem hy)
    split at hx
    · split at hx
      · exact hmem x hx
      · rcases List.mem_append.mp hx with hx | hx
        · exact hmem x hx
        · simp at hx
          exact Or.inr (Or.inr hx)
    · exact Or.inl (h.succ_mem hx)

/-- Node values after auto-creation: an existing node keeps its value; a
created tail gets `start_node_value`; a created head (distinct from the tail)
gets `end_node_value`. -/
theorem dget_node_values_autoCreated (g : VersatileDigraph) (t hd n : String) (a : EdgeArgs) :
    dget n (autoCreated g t hd a).node_values =
      if n ∈ g.get_nodes then dget n g.node_values
      else if n = t then some a.start_node_value
      else if n = hd then some a.end_node_value
      else none := by
  simp only [autoCreated]
  set g1 := if t ∈ g.get_nodes then g else g.add_node t a.start_node_value with hg1
  have hv1 : dget n g1.node_values =
      if n ∈ g.get_nodes then dget n g.node_values
      else if n = t then some a.start_node_value else dget n g.node_values := by
    rw [hg1]
    split
    · rename_i ht
      by_cases hng : n ∈ g.get_nodes
      · rw [if_pos hng]
      · rw [if_neg hng]
        by_cases hnt : n = t
        · subst hnt
          exact absurd ht hng
        · rw [if_neg hnt]
    · rename_i ht
      rw [dget_node_values_add_node]
      by_cases hnt : n = t
      · subst hnt
        rw [if_pos rfl, if_neg ht]
      · rw [if_neg hnt]
        by_cases hng : n ∈ g.get_nodes
        · rw [if_pos hng]
        · rw [if_neg hng]
  have hm1 : ∀ y, (y ∈ g1.get_nodes ↔ y ∈ g.get_nodes ∨ y = t) := by
    intro y
    rw [hg1]
    split
    · rename_i ht
      exact ⟨Or.inl, fun hy => hy.elim id (fun hyt => hyt ▸ ht)⟩
    · exact mem_get_nodes_add_node g t y a.start_node_value
  have hnone : ∀ y, y ∉ g.get_nodes → dget y g.node_values = none := by
    intro y hy
    rw [dget_eq_none_iff]
    exact hy
  split
  · rename_i hh
    rw [hv1]
    by_cases hng : n ∈ g.get_nodes
    · rw [if_pos hng, if_pos hng]
    · rw [if_neg hng, if_neg hng]
      by_cases hnt : n = t
      · rw [if_pos hnt, if_pos hnt]
      · rw [if_neg hnt, if_neg hnt]
        by_cases hnh : n = hd
        · subst hnh
          exact ((hm1 n).mp hh).elim (fun hx => absurd hx hng) (fun hx => absurd hx hnt)
        · rw [if_neg hnh]
          exact hnone n hng
  · rename_i hh
    rw [dget_node_values_add_node]
    by_cases hnh : n = hd
    · subst hnh
      rw [if_pos rfl]
      have hng : n ∉ g.get_nodes := fun hx => hh ((hm1 n).mpr (Or.inl hx))
      have hnt : n ≠ t := fun hx => hh ((hm1 n).mpr (Or.inr hx))
      rw [if_neg hng, if_neg hnt, if_pos rfl]
    · rw [if_neg hnh, hv1]
      by_cases hng : n ∈ g.get_nodes
      · rw [if_pos hng, if_pos hng]
      · rw [if_neg hng, if_neg hng]
        by_cases hnt : n = t
        · rw [if_pos hnt, if_pos hnt]
        · rw [if_neg hnt, if_neg hnt, if_neg hnh]
          exact hnone n hng

theorem innerD_weights_add_node (g : VersatileDigraph) (i x : String) (v : Int) :
    innerD x (g.add_node i v).edge_weights = if x = i then [] else innerD x g.edge_weights := by
  by_cases hx : x = i
  · subst hx
    simp [add_node, innerD, dget_dinsert_self]
  · simp [add_node, innerD, dget_dinsert_ne hx, hx]

theorem innerD_weights_of_not_mem {g : VersatileDigraph} (h : WF g) {x : String}
    (hx : x ∉ g.get_nodes) : innerD x g.edge_weights = [] := by
  have : dget x g.edge_weights = none := by
    rw [dget_eq_none_iff, h.1]
    exact hx
  simp [innerD, this]

theorem innerD_weights_autoCreated {g : VersatileDigraph} (h : WF g) (t hd x : String)
    (a : EdgeArgs) :
    innerD x (autoCreated g t hd a).edge_weights = innerD x g.edge_weights := by
  simp only [autoCreated]
  set g1 := if t ∈ g.get_nodes then g else g.add_node t a.start_node_value with hg1
  have h1 : WF g1 := by
    rw [hg1]
    split
    · exact h
    · exact wf_add_node h t a.start_node_value
  have hs1 : innerD x g1.edge_weights = innerD x g.edge_weights := by
    rw [hg1]
    split
    · rfl
    · rename_i ht
      rw [innerD_weights_add_node]
      split
      · rename_i hx
        subst hx
        exact (innerD_weights_of_not_mem h ht).symm
      · rfl
  split
  · exact hs1
  · rename_i hh
    rw [innerD_weights_add_node]
    split
    · rename_i hx
      subst hx
      by_cases hxg : x ∈ g.get_nodes
      · exact absurd (by rw [hg1]; split <;> [exact hxg; exact (mem_get_nodes_add_node g t x a.start_node_value).mpr (Or.inl hxg)]) hh
      · exact (innerD_weights_of_not_mem h hxg).symm
    · exact hs1

/-- The recorded weight entries after `add_edge`: the `(t, hd)` entry is set
to the effective weight exactly when the weight check passes; every other
entry is untouched. -/
theorem dget_weights_add_edge {g : VersatileDigraph} (h : WF g) (t hd x y : String)
    (a : EdgeArgs) :
    dget y (innerD x (g.add_edge t hd a).1.edge_weights) =
      if 0 ≤ a.effWeight ∧ x = t ∧ y = hd then some a.effWeight
      else dget y (innerD x g.edge_weights) := by
  rw [add_edge_fst_edge_weights]
  by_cases hw : 0 ≤ a.effWeight
  · rw [if_pos hw]
    by_cases hx : x = t
    · subst hx
      rw [show innerD x (dinsert x (dinsert hd a.effWeight (innerD x (autoCreated g x hd a).edge_weights)) (autoCreated g x hd a).edge_weights) = dinsert hd a.effWeight (innerD x (autoCreated g x hd a).edge_weights) by simp [innerD, dget_dinsert_self]]
      by_cases hy : y = hd
      · subst hy
        rw [dget_dinsert_self, if_pos ⟨hw, rfl, rfl⟩]
      · rw [dget_dinsert_ne hy, innerD_weights_autoCreated h,
          if_neg (fun hc => hy hc.2.2)]
    · rw [show innerD x (dinsert t (dinsert hd a.effWeight (innerD t (autoCreated g t hd a).edge_weights)) (autoCreated g t hd a).edge_weights) = innerD x (autoCreated g t hd a).edge_weights by simp [innerD, dget_dinsert_ne hx]]
      rw [innerD_weights_autoCreated h, if_neg (fun hc => hx hc.2.1)]
  · rw [if_neg hw, innerD_weights_autoCreated h, if_neg (fun hc => hw hc.1)]

end VersatileDigraph

/-! ### The edge relation and reachability -/

open VersatileDigraph

theorem Reaches.trans {g : VersatileDigraph} {a b c : String}
    (h1 : Reaches g a b) (h2 : Reaches g b c) : Reaches g a c := by
  induction h1 with
  | refl => exact h2
  | step he _ ih => exact Reaches.step he (ih h2)

theorem Reaches.single {g : VersatileDigraph} {a b : String} (h : hasEdge g a b) :
    Reaches g a b := Reaches.step h (Reaches.refl b)

theorem Reaches.mono {g g' : VersatileDigraph}
    (hsub : ∀ u v, hasEdge g u v → hasEdge g' u v) {a b : String}
    (h : Reaches g a b) : Reaches g' a b := by
  induction h with
  | refl a => exact Reaches.refl a
  | step he _ ih => exact Reaches.step (hsub _ _ he) ih

theorem Reaches.dest_mem {g : VersatileDigraph} (hwf : WF g) {a b : String}
    (h : Reaches g a b) (hne : a ≠ b) : b ∈ g.get_nodes := by
  induction h with
  | refl a => exact absurd rfl hne
  | step he hr ih =>
    rename_i x y z
    by_cases hyz : y = z
    · subst hyz
      exact hwf.succ_mem he
    · exact ih hyz

theorem acyclic_of_subrel {g g' : VersatileDigraph}
    (hsub : ∀ u v, hasEdge g' u v → hasEdge g u v) (hac : Acyclic g) : Acyclic g' :=
  fun u v he hr => hac u v (hsub u v he) (hr.mono hsub)

theorem acyclic_add_node {g : VersatileDigraph} (hac : Acyclic g) (i : String) (v : Int) :
    Acyclic (g.add_node i v) := by
  refine acyclic_of_subrel (fun u w he => ?_) hac
  simp only [hasEdge, succList_add_node] at he
  split at he
  · simp at he
  · exact he

theorem hasEdge_add_edge_iff {g : VersatileDigraph} (h : WF g) (t hd u v : String)
    (a : EdgeArgs) :
    hasEdge (g.add_edge t hd a).1 u v ↔ hasEdge g u v ∨ (u = t ∧ v = hd) := by
  simp only [hasEdge, succList_add_edge h]
  by_cases hu : u = t
  · subst hu
    rw [if_pos rfl]
    by_cases hmem : hd ∈ succList g u
    · rw [if_pos hmem]
      constructor
      · exact Or.inl
      · rintro (hv | ⟨-, rfl⟩)
        · exact hv
        · exact hmem
    · rw [if_neg hmem]
      rw [List.mem_append, List.mem_singleton]
      constructor
      · rintro (hv | rfl)
        · exact Or.inl hv
        · exact Or.inr ⟨rfl, rfl⟩
      · rintro (hv | ⟨-, rfl⟩)
        · exact Or.inl hv
        · exact Or.inr rfl
  · rw [if_neg hu]
    constructor
    · exact Or.inl
    · rintro (hv | ⟨rfl, rfl⟩)
      · exact hv
      · exact absurd rfl hu

theorem reaches_add_edge_decomp {g : VersatileDigraph} (h : WF g) {t hd : String}
    (a : EdgeArgs) {x y : String} (hr : Reaches (g.add_edge t hd a).1 x y) :
    Reaches g x y ∨ (Reaches g x t ∧ Reaches g hd y) := by
  induction hr with
  | refl a => exact Or.inl (Reaches.refl a)
  | step he hr ih =>
    rename_i p q r
    rcases (hasEdge_add_edge_iff h t hd p q a).mp he with hpq | ⟨rfl, rfl⟩
    · rcases ih with hqr | ⟨hqt, hhr⟩
      · exact Or.inl (Reaches.step hpq hqr)
      · exact Or.inr ⟨Reaches.step hpq hqt, hhr⟩
    · rcases ih with hqr | ⟨hqt, hhr⟩
      · exact Or.inr ⟨Reaches.refl p, hqr⟩
      · exact Or.inr ⟨Reaches.refl p, hhr⟩

/-- Adding the edge `t → hd` when no path leads from `hd` back to `t`
preserves acyclicity (the partially mutated state after a failed weight check
included, since the successor entry is recorded in both cases). -/
theorem acyclic_add_edge {g : VersatileDigraph} (h : WF g) (hac : Acyclic g)
    {t hd : String} (a : EdgeArgs) (hnr : ¬ Reaches g hd t) :
    Acyclic (g.add_edge t hd a).1 := by
  intro u v he hr
  rcases (hasEdge_add_edge_iff h t hd u v a).mp he with huv | ⟨rfl, rfl⟩
  · rcases reaches_add_edge_decomp h a hr with hvu | ⟨hvt, hhu⟩
    · exact hac u v huv hvu
    · exact hnr (hhu.trans (Reaches.step huv hvt))
  · rcases reaches_add_edge_decomp h a hr with hvu | ⟨hvt, hhu⟩
    · exact hnr hvu
    · exact hnr hhu

/-! ### Correctness of `_has_path` (breadth-first reachability) -/

theorem Reaches.src_mem {g : VersatileDigraph} (hwf : WF g) {a b : String}
    (h : Reaches g a b) (hne : a ≠ b) : a ∈ g.get_nodes := by
  cases h with
  | refl => exact absurd rfl hne
  | step he _ => exact hwf.tail_mem he

/-- A successor-closed set of nodes not containing the target cannot reach the
target. -/
theorem not_reaches_of_closed {g : VersatileDigraph} {V : List String} {t : String}
    (hcl : ∀ x ∈ V, ∀ y, hasEdge g x y → y ∈ V) (ht : t ∉ V) :
    ∀ {x : String}, x ∈ V → ¬ Reaches g x t := by
  have main : ∀ {x y : String}, Reaches g x y → x ∈ V → y ∉ V → False := by
    intro x y hr
    induction hr with
    | refl a => exact fun hx hy => hy hx
    | step he hr ih =>
      rename_i p q r
      exact fun hp hy => ih (hcl p hp q he) hy
  intro x hx hr
  exact main hr hx ht

theorem hpScan_true (target : String) :
    ∀ (ss v q : List String), target ∈ ss →
      ∃ v' q', DAG.hpScan target ss (v, q) = (true, v', q') := by
  intro ss
  induction ss with
  | nil => intro v q h; simp at h
  | cons n rest ih =>
    intro v q h
    by_cases hn : n = target
    · exact ⟨v, q, by simp [DAG.hpScan, hn]⟩
    · have hrest : target ∈ rest := by
        rcases List.mem_cons.mp h with h | h
        · exact absurd h.symm hn
        · exact h
      by_cases hv : n ∈ v
      · obtain ⟨v', q', hvq⟩ := ih v q hrest
        exact ⟨v', q', by simpa [DAG.hpScan, hn, hv] using hvq⟩
      · obtain ⟨v', q', hvq⟩ := ih (v ++ [n]) (q ++ [n]) hrest
        exact ⟨v', q', by simpa [DAG.hpScan, hn, hv] using hvq⟩

theorem hpScan_false (target : String) :
    ∀ (ss v q : List String), target ∉ ss →
      ∃ δ, DAG.hpScan target ss (v, q) = (false, v ++ δ, q ++ δ) ∧ δ.Nodup ∧
        (∀ x ∈ δ, x ∈ ss ∧ x ∉ v) ∧ (∀ x ∈ ss, x ∈ v ∨ x ∈ δ) := by
  intro ss
  induction ss with
  | nil =>
    intro v q _
    exact ⟨[], by simp [DAG.hpScan], List.nodup_nil, by simp, by simp⟩
  | cons n rest ih =>
    intro v q hmem
    have hn : n ≠ target := fun h => hmem (h ▸ List.mem_cons_self n rest)
    have hnt : target ∉ rest := fun h => hmem (List.mem_cons_of_mem n h)
    have hn' : ¬ n = target := hn
    by_cases hv : n ∈ v
    · obtain ⟨δ, hvq, hnd, hx, hcov⟩ := ih v q hnt
      refine ⟨δ, by simpa [DAG.hpScan, hn', hv] using hvq, hnd, ?_, ?_⟩
      · exact fun x hxδ => ⟨List.mem_cons_of_mem n (hx x hxδ).1, (hx x hxδ).2⟩
      · intro x hxs
        rcases List.mem_cons.mp hxs with rfl | hxs
        · exact Or.inl hv
        · exact hcov x hxs
    · obtain ⟨δ, hvq, hnd, hx, hcov⟩ := ih (v ++ [n]) (q ++ [n]) hnt
      refine ⟨n :: δ, ?_, ?_, ?_, ?_⟩
      · have : (v ++ [n]) ++ δ = v ++ n :: δ := by simp
        have hq : (q ++ [n]) ++ δ = q ++ n :: δ := by simp
        rw [← this, ← hq]
        simpa [DAG.hpScan, hn', hv] using hvq
      · refine List.nodup_cons.mpr ⟨?_, hnd⟩
        intro hc
        exact (hx n hc).2 (List.mem_append_right v (List.mem_singleton_self n))
      · intro x hxδ
        rcases List.mem_cons.mp hxδ with rfl | hxδ
        · exact ⟨List.mem_cons_self x rest, hv⟩
        · refine ⟨List.mem_cons_of_mem n (hx x hxδ).1, fun hc => (hx x hxδ).2 ?_⟩
          exact List.mem_append_left [n] hc
      · intro x hxs
        rcases List.mem_cons.mp hxs with rfl | hxs
        · exact Or.inr (List.mem_cons_self x δ)
        · rcases hcov x hxs with hc | hc
          · rcases List.mem_append.mp hc with hc | hc
            · exact Or.inl hc
            · exact Or.inr (by simpa using Or.inl (List.mem_singleton.mp hc))
          · exact Or.inr (List.mem_cons_of_mem n hc)

/-- Main invariant proof for the `while queue:` loop of `_has_path`: with a
duplicate-free visited set of nodes reachable from `s`, a queue inside it, the
dequeued part successor-closed, and enough fuel, the loop terminates and its
boolean answer is sound in both directions. -/
theorem hpLoop_spec {g : VersatileDigraph} (hwf : WF g) (s target : String) :
    ∀ (fuel : Nat) (visited queue : List String),
    (∀ x ∈ visited, x ∈ g.get_nodes) →
    visited.Nodup →
    (∀ x ∈ queue, x ∈ visited) →
    (∀ x ∈ visited, x ∉ queue → ∀ y, hasEdge g x y → y ∈ visited) →
    target ∉ visited →
    (∀ x ∈ visited, Reaches g s x) →
    queue.length + (g.get_nodes.length - visited.length) ≤ fuel →
    ∃ b, DAG.hpLoop g target fuel visited queue = .ok b ∧
      (b = true → Reaches g s target) ∧
      (b = false → ∀ x ∈ visited, ¬ Reaches g x target) := by
  intro fuel
  induction fuel with
  | zero =>
    intro visited queue h1 h2 h3 h4 h5 h6 hfuel
    cases queue with
    | nil =>
      refine ⟨false, rfl, by simp, fun _ x hx => ?_⟩
      exact not_reaches_of_closed (fun x hx y hy => h4 x hx (by simp) y hy) h5 hx
    | cons c rest => simp at hfuel
  | succ fuel ih =>
    intro visited queue h1 h2 h3 h4 h5 h6 hfuel
    cases queue with
    | nil =>
      refine ⟨false, rfl, by simp, fun _ x hx => ?_⟩
      exact not_reaches_of_closed (fun x hx y hy => h4 x hx (by simp) y hy) h5 hx
    | cons current rest =>
      have hcv : current ∈ visited := h3 current (List.mem_cons_self current rest)
      have hcn : current ∈ g.get_nodes := h1 current hcv
      have hsucc : g.successors current = .ok (succList g current) := by
        simp [successors, hcn]
      by_cases htin : target ∈ succList g current
      · obtain ⟨v', q', hvq⟩ := hpScan_true target (succList g current) visited rest htin
        refine ⟨true, ?_, fun _ => ?_, by simp⟩
        · simp [DAG.hpLoop, hsucc, hvq, Except.bind, Bind.bind, Monad.toBind]
        · exact (h6 current hcv).trans (Reaches.single htin)
      · obtain ⟨δ, hscan, hδnd, hδmem, hcover⟩ :=
          hpScan_false target (succList g current) visited rest htin
        have hδsub : ∀ x ∈ δ, x ∈ succList g current := fun x hx => (hδmem x hx).1
        have hδnotv : ∀ x ∈ δ, x ∉ visited := fun x hx => (hδmem x hx).2
        have h1' : ∀ x ∈ visited ++ δ, x ∈ g.get_nodes := by
          intro x hx
          rcases List.mem_append.mp hx with hx | hx
          · exact h1 x hx
          · exact hwf.succ_mem (hδsub x hx)
        have h2' : (visited ++ δ).Nodup :=
          List.Nodup.append h2 hδnd (fun a ha hδa => hδnotv a hδa ha)
        have h3' : ∀ x ∈ rest ++ δ, x ∈ visited ++ δ := by
          intro x hx
          rcases List.mem_append.mp hx with hx | hx
          · exact List.mem_append_left δ (h3 x (List.mem_cons_of_mem current hx))
          · exact List.mem_append_right visited hx
        have h4' : ∀ x ∈ visited ++ δ, x ∉ rest ++ δ → ∀ y, hasEdge g x y →
            y ∈ visited ++ δ := by
          intro x hx hxq y hy
          rcases List.mem_append.mp hx with hx | hx
          · by_cases hxc : x = current
            · subst hxc
              rcases hcover y hy with hyv | hyδ
              · exact List.mem_append_left δ hyv
              · exact List.mem_append_right visited hyδ
            · have hxq' : x ∉ current :: rest := by
                intro hc
                rcases List.mem_cons.mp hc with hc | hc
                · exact hxc hc
                · exact hxq (List.mem_append_left δ hc)
              exact List.mem_append_left δ (h4 x hx hxq' y hy)
          · exact absurd (List.mem_append_right rest hx) hxq
        have h5' : target ∉ visited ++ δ := by
          intro hc
          rcases List.mem_append.mp hc with hc | hc
          · exact h5 hc
          · exact htin (hδsub target hc)
        have h6' : ∀ x ∈ visited ++ δ, Reaches g s x := by
          intro x hx
          rcases List.mem_append.mp hx with hx | hx
          · exact h6 x hx
          · exact (h6 current hcv).trans (Reaches.single (hδsub x hx))
        have hlen : (visited ++ δ).length ≤ g.get_nodes.length :=
          List.Subperm.length_le (h2'.subperm h1')
        have hfuel' : (rest ++ δ).length +
            (g.get_nodes.length - (visited ++ δ).length) ≤ fuel := by
          simp only [List.length_append] at hlen ⊢
          simp only [List.length_cons] at hfuel
          omega
        obtain ⟨b, hb, hbt, hbf⟩ := ih (visited ++ δ) (rest ++ δ) h1' h2' h3' h4' h5' h6' hfuel'
        refine ⟨b, ?_, hbt, fun hbf' x hx => hbf hbf' x (List.mem_append_left δ hx)⟩
        simp [DAG.hpLoop, hsucc, hscan, hb, Except.bind, Bind.bind, Monad.toBind]

/-- `_has_path` from a present start node terminates and answers reachability
exactly. -/
theorem has_path_spec {g : VersatileDigraph} (hwf : WF g) {s : String} (t : String)
    (hs : s ∈ g.get_nodes) :
    ∃ b, DAG.has_path g s t = .ok b ∧ (b = true ↔ Reaches g s t) := by
  by_cases hst : s = t
  · subst hst
    exact ⟨true, by simp [DAG.has_path], by simp [Reaches.refl]⟩
  · have h1 : ∀ x ∈ [s], x ∈ g.get_nodes := by simpa using hs
    have h2 : ([s] : List String).Nodup := List.nodup_singleton s
    have h3 : ∀ x ∈ [s], x ∈ [s] := fun x hx => hx
    have h4 : ∀ x ∈ [s], x ∉ [s] → ∀ y, hasEdge g x y → y ∈ [s] := by
      intro x hx hnx
      exact absurd hx hnx
    have h5 : t ∉ [s] := by simpa using fun h => hst h.symm
    have h6 : ∀ x ∈ [s], Reaches g s x := by
      intro x hx
      rw [List.mem_singleton.mp hx]
      exact Reaches.refl s
    have hfuel : ([s] : List String).length +
        (g.get_nodes.length - ([s] : List String).length) ≤ g.get_nodes.length + 1 := by
      simp
      omega
    obtain ⟨b, hb, hbt, hbf⟩ := hpLoop_spec hwf s t (g.get_nodes.length + 1) [s] [s]
      h1 h2 h3 h4 h5 h6 hfuel
    refine ⟨b, by simp [DAG.has_path, hst, hb], ⟨hbt, fun hr => ?_⟩⟩
    cases b with
    | true => rfl
    | false => exact absurd hr (hbf rfl s (List.mem_singleton_self s))

/-- `_has_path` from an absent start node (distinct from the target) raises
the `KeyError` of the underlying `successors` lookup, as in the source. -/
theorem has_path_not_mem {g : VersatileDigraph} {s : String} (t : String)
    (hs : s ∉ g.get_nodes) (hst : s ≠ t) :
    DAG.has_path g s t =
      .error (.keyError ("Node " ++ s ++ " is not present in the graph.")) := by
  have hsucc : g.successors s =
      .error (.keyError ("Node " ++ s ++ " is not present in the graph.")) := by
    simp [successors, hs]
  simp [DAG.has_path, hst, DAG.hpLoop, hsucc, Except.bind, Bind.bind, Monad.toBind]

/-- `DAG.add_edge` when a path from the head back to the tail already exists
(the self-loop `tail = head` included): the cycle error is raised and the
graph is returned untouched. -/
theorem dag_add_edge_of_reaches {g : VersatileDigraph} (hwf : WF g) {t hd : String}
    (a : EdgeArgs) (hr : Reaches g hd t) :
    DAG.add_edge g t hd a =
      (g, some (.valueError
        ("Adding edge from " ++ t ++ " to " ++ hd ++ " would create a cycle"))) := by
  by_cases hht : hd = t
  · subst hht
    simp [DAG.add_edge, DAG.has_path]
  · have hhd : hd ∈ g.get_nodes := Reaches.src_mem hwf hr hht
    obtain ⟨b, hb, hiff⟩ := has_path_spec hwf t hhd
    have hbt : b = true := hiff.mpr hr
    subst hbt
    simp [DAG.add_edge, hb]

/-- `DAG.add_edge` when the head is present but cannot reach the tail:
delegates to the base-class insertion. -/
theorem dag_add_edge_of_not_reaches {g : VersatileDigraph} (hwf : WF g) {t hd : String}
    (a : EdgeArgs) (hhd : hd ∈ g.get_nodes) (hnr : ¬ Reaches g hd t) :
    DAG.add_edge g t hd a = g.add_edge t hd a := by
  obtain ⟨b, hb, hiff⟩ := has_path_spec hwf t hhd
  have hbf : b = false := by
    cases b with
    | true => exact absurd (hiff.mp rfl) hnr
    | false => rfl
  subst hbf
  simp [DAG.add_edge, hb]

/-- `DAG.add_edge` with an absent head distinct from the tail: the
reachability pre-check itself raises `KeyError` and nothing is inserted. -/
theorem dag_add_edge_head_absent {g : VersatileDigraph} {t hd : String} (a : EdgeArgs)
    (hhd : hd ∉ g.get_nodes) (hne : hd ≠ t) :
    DAG.add_edge g t hd a =
      (g, some (.keyError ("Node " ++ hd ++ " is not present in the graph."))) := by
  simp [DAG.add_edge, has_path_not_mem t hhd hne]

/-! ### Sequences of mutating API calls -/

theorem wf_applyBase {g : VersatileDigraph} (h : WF g) (op : Op) :
    WF (applyBase g op).1 := by
  cases op with
  | node i v => exact wf_add_node h i v
  | edge t hd a => exact wf_add_edge h t hd a

theorem wf_runBase {g : VersatileDigraph} (h : WF g) :
    ∀ ops : List Op, WF (runBase g ops)
  | [] => h
  | op :: rest => wf_runBase (wf_applyBase h op) rest

theorem wf_acyclic_applyDAG {g : VersatileDigraph} (h : WF g) (hac : Acyclic g) (op : Op) :
    WF (applyDAG g op).1 ∧ Acyclic (applyDAG g op).1 := by
  cases op with
  | node i v => exact ⟨wf_add_node h i v, acyclic_add_node hac i v⟩
  | edge t hd a =>
    by_cases hr : Reaches g hd t
    · rw [show applyDAG g (Op.edge t hd a) = DAG.add_edge g t hd a from rfl,
        dag_add_edge_of_reaches h a hr]
      exact ⟨h, hac⟩
    · by_cases hhd : hd ∈ g.get_nodes
      · rw [show applyDAG g (Op.edge t hd a) = DAG.add_edge g t hd a from rfl,
          dag_add_edge_of_not_reaches h a hhd hr]
        exact ⟨wf_add_edge h t hd a, acyclic_add_edge h hac a hr⟩
      · have hne : hd ≠ t := by
          intro hc
          exact hr (hc ▸ Reaches.refl hd)
        rw [show applyDAG g (Op.edge t hd a) = DAG.add_edge g t hd a from rfl,
          dag_add_edge_head_absent a hhd hne]
        exact ⟨h, hac⟩

theorem wf_acyclic_runDAG {g : VersatileDigraph} (h : WF g) (hac : Acyclic g) :
    ∀ ops : List Op, WF (runDAG g ops) ∧ Acyclic (runDAG g ops)
  | [] => ⟨h, hac⟩
  | op :: rest =>
    wf_acyclic_runDAG (wf_acyclic_applyDAG h hac op).1 (wf_acyclic_applyDAG h hac op).2 rest

theorem acyclic_emptyGraph : Acyclic VersatileDigraph.emptyGraph := by
  intro u v he
  simp [hasEdge, succList, innerD, VersatileDigraph.emptyGraph, dget, dkeys] at he

/-! ### Query helpers -/

namespace VersatileDigraph

theorem successors_ok {g : VersatileDigraph} {n : String} (hn : n ∈ g.get_nodes) :
    g.successors n = .ok (succList g n) := by
  simp [successors, hn]

theorem predecessors_ok {g : VersatileDigraph} {n : String} (hn : n ∈ g.get_nodes) :
    g.predecessors n = .ok (predList g n) := by
  simp [predecessors, hn]

theorem mem_predList_iff {g : VersatileDigraph} {v n : String} :
    n ∈ predList g v ↔ n ∈ g.get_nodes ∧ hasEdge g n v := by
  simp only [predList, List.mem_filter, hasEdge]
  constructor
  · exact fun h => ⟨h.1, (dmemb_iff v (innerD n g.edge_names)).mp h.2⟩
  · exact fun h => ⟨h.1, (dmemb_iff v (innerD n g.edge_names)).mpr h.2⟩

theorem out_degree_ok {g : VersatileDigraph} {n : String} (hn : n ∈ g.get_nodes) :
    g.out_degree n = .ok (succList g n).length := by
  simp [out_degree, successors, hn, Except.map]

theorem in_degree_ok {g : VersatileDigraph} {n : String} (hn : n ∈ g.get_nodes) :
    g.in_degree n = .ok (predList g n).length := by
  simp [in_degree, predecessors, hn, Except.map]

theorem get_edge_weight_ok_iff {g : VersatileDigraph} {x y : String} {w : Int} :
    g.get_edge_weight x y = .ok w ↔
      x ∈ g.get_nodes ∧ y ∈ g.get_nodes ∧ dget y (innerD x g.edge_weights) = some w := by
  unfold get_edge_weight
  by_cases hx : x ∈ g.get_nodes
  · by_cases hy : y ∈ g.get_nodes
    · rw [if_neg (not_not_intro hx), if_neg (not_not_intro hy)]
      cases hw : dget y (innerD x g.edge_weights) with
      | none => simp [hx, hy]
      | some w' => simp [hx, hy]
    · rw [if_neg (not_not_intro hx), if_pos hy]
      simp [hy]
  · rw [if_pos hx]
    simp [hx]

end VersatileDigraph

/-! ### Concrete example graphs for counterexamples and witnesses -/

namespace VersatileDigraph

theorem get_node_value_eq {g : VersatileDigraph} {n : String} (hn : n ∈ g.get_nodes) :
    g.get_node_value n = .ok ((dget n g.node_values).getD 0) := by
  simp [get_node_value, hn]

theorem get_edge_weight_absent {g : VersatileDigraph} {x y : String}
    (hx : x ∈ g.get_nodes) (hy : y ∈ g.get_nodes)
    (hnone : dget y (innerD x g.edge_weights) = none) :
    g.get_edge_weight x y =
      .error (.keyError "The specified edge does not exist in the graph") := by
  unfold get_edge_weight
  rw [if_neg (not_not_intro hx), if_neg (not_not_intro hy), hnone]

end VersatileDigraph

/-! ### Correctness of `dfs` -/

/-- A node set containing `s` and closed under successors contains everything
reachable from `s`. -/
theorem mem_of_reaches_closed {g : VersatileDigraph} {V : List String}
    (hcl : ∀ x ∈ V, ∀ y, hasEdge g x y → y ∈ V) :
    ∀ {a b : String}, Reaches g a b → a ∈ V → b ∈ V := by
  intro a b hr
  induction hr with
  | refl a => exact id
  | step he hr ih =>
    rename_i p q r
    exact fun hp => ih (hcl p hp q he)

/-- Invariant proof for `recursive_dfs`: starting from a duplicate-free
visited set of nodes with enough fuel, the call returns, visited only grows
with nodes reachable from the call's node, the newly visited part is
successor-closed, and the result list collects exactly the newly visited nodes
other than `start`. -/
theorem dfsVisit_spec {g : VersatileDigraph} (hwf : WF g) (start : String) :
    ∀ (fuel : Nat) (node : String) (visited result : List String),
    node ∈ g.get_nodes →
    (∀ x ∈ visited, x ∈ g.get_nodes) →
    visited.Nodup →
    result.Nodup →
    (∀ x ∈ result, x ∈ visited) →
    g.get_nodes.length + 1 ≤ fuel + visited.length →
    ∃ v' r',
      TraversableDigraph.dfsVisit g start fuel node (visited, result) = .ok (v', r') ∧
      (∀ x ∈ visited, x ∈ v') ∧
      (∀ x ∈ v', x ∈ g.get_nodes) ∧
      v'.Nodup ∧
      r'.Nodup ∧
      (∀ x ∈ r', x ∈ v') ∧
      node ∈ v' ∧
      (∀ x ∈ v', x ∈ visited ∨ Reaches g node x) ∧
      (∀ x ∈ v', x ∉ visited → ∀ y, hasEdge g x y → y ∈ v') ∧
      (∀ x, x ∈ r' ↔ x ∈ result ∨ (x ∈ v' ∧ x ∉ visited ∧ x ≠ start)) := by
  intro fuel
  induction fuel with
  | zero =>
    intro node visited result hnode hv hvnd hrnd hrv hfuel
    have hle : visited.length ≤ g.get_nodes.length :=
      List.Subperm.length_le (hvnd.subperm hv)
    omega
  | succ fuel ih =>
    intro node visited result hnode hv hvnd hrnd hrv hfuel
    by_cases hmem : node ∈ visited
    · refine ⟨visited, result, by simp [TraversableDigraph.dfsVisit, hmem],
        fun x hx => hx, hv, hvnd, hrnd, hrv, hmem, fun x hx => Or.inl hx,
        fun x hx hnx => absurd hx hnx, fun x => ?_⟩
      constructor
      · exact Or.inl
      · rintro (hx | ⟨hx1, hx2, -⟩)
        · exact hx
        · exact absurd hx1 hx2
    · have inner : ∀ (ss : List String), (∀ y ∈ ss, y ∈ g.get_nodes) →
          ∀ (v r : List String), (∀ x ∈ v, x ∈ g.get_nodes) → v.Nodup → r.Nodup →
          (∀ x ∈ r, x ∈ v) → g.get_nodes.length + 1 ≤ fuel + v.length →
          ∃ v' r', ss.foldlM
              (fun vr n => TraversableDigraph.dfsVisit g start fuel n vr) (v, r) =
                .ok (v', r') ∧
            (∀ x ∈ v, x ∈ v') ∧ (∀ x ∈ v', x ∈ g.get_nodes) ∧ v'.Nodup ∧ r'.Nodup ∧
            (∀ x ∈ r', x ∈ v') ∧
            (∀ y ∈ ss, y ∈ v') ∧
            (∀ x ∈ v', x ∈ v ∨ ∃ y ∈ ss, Reaches g y x) ∧
            (∀ x ∈ v', x ∉ v → ∀ y, hasEdge g x y → y ∈ v') ∧
            (∀ x, x ∈ r' ↔ x ∈ r ∨ (x ∈ v' ∧ x ∉ v ∧ x ≠ start)) := by
        intro ss
        induction ss with
        | nil =>
          intro _ v r hv' hvnd' hrnd' hrv' _
          refine ⟨v, r, by simp [List.foldlM, pure, Except.pure], fun x hx => hx, hv',
            hvnd', hrnd', hrv', by simp, fun x hx => Or.inl hx,
            fun x hx hnx => absurd hx hnx, fun x => ?_⟩
          constructor
          · exact Or.inl
          · rintro (hx | ⟨hx1, hx2, -⟩)
            · exact hx
            · exact absurd hx1 hx2
        | cons n rest ihs =>
          intro hss v r hv' hvnd' hrnd' hrv' hfuel'
          obtain ⟨v1, r1, heq1, hsub1, hvn1, hnd1, hrnd1, hrv1, hmemn, hreach1,
              hclose1, hR1⟩ :=
            ih n v r (hss n (List.mem_cons_self n rest)) hv' hvnd' hrnd' hrv' hfuel'
          have hlen1 : v.length ≤ v1.length :=
            List.Subperm.length_le (hvnd'.subperm hsub1)
          obtain ⟨v', r', heq2, hsub2, hvn2, hnd2, hrnd2, hrv2, hseed2, hreach2,
              hclose2, hR2⟩ :=
            ihs (fun y hy => hss y (List.mem_cons_of_mem n hy)) v1 r1 hvn1 hnd1
              hrnd1 hrv1 (by omega)
          refine ⟨v', r', ?_, fun x hx => hsub2 x (hsub1 x hx), hvn2, hnd2, hrnd2,
            hrv2, ?_, ?_, ?_, ?_⟩
          · simp only [List.foldlM, heq1, Except.bind, Bind.bind, Monad.toBind]
            exact heq2
          · intro y hy
            rcases List.mem_cons.mp hy with rfl | hy
            · exact hsub2 y hmemn
            · exact hseed2 y hy
          · intro x hx
            rcases hreach2 x hx with hx1 | ⟨y, hy, hr⟩
            · rcases hreach1 x hx1 with hx0 | hr
              · exact Or.inl hx0
              · exact Or.inr ⟨n, List.mem_cons_self n rest, hr⟩
            · exact Or.inr ⟨y, List.mem_cons_of_mem n hy, hr⟩
          · intro x hx hnx y hy
            by_cases hx1 : x ∈ v1
            · exact hsub2 y (hclose1 x hx1 hnx y hy)
            · exact hclose2 x hx hx1 y hy
          · intro x
            rw [hR2 x, hR1 x]
            constructor
            · rintro ((hx | ⟨hxv, hnv, hns⟩) | ⟨hxv, hnv, hns⟩)
              · exact Or.inl hx
              · exact Or.inr ⟨hsub2 x hxv, hnv, hns⟩
              · exact Or.inr ⟨hxv, fun hc => hnv (hsub1 x hc), hns⟩
            · rintro (hx | ⟨hxv, hnv, hns⟩)
              · exact Or.inl (Or.inl hx)
              · by_cases hx1 : x ∈ v1
                · exact Or.inl (Or.inr ⟨hx1, hnv, hns⟩)
                · exact Or.inr ⟨hxv, hx1, hns⟩
      have hsucc : g.successors node = .ok (succList g node) := successors_ok hnode
      have hss : ∀ y ∈ succList g node, y ∈ g.get_nodes := fun y hy => hwf.succ_mem hy
      have hv1 : ∀ x ∈ node :: visited, x ∈ g.get_nodes := by
        intro x hx
        rcases List.mem_cons.mp hx with rfl | hx
        · exact hnode
        · exact hv x hx
      have hvnd1 : (node :: visited).Nodup := List.nodup_cons.mpr ⟨hmem, hvnd⟩
      have hres : ∀ (res1 : List String), res1.Nodup → (∀ x ∈ res1, x ∈ node :: visited) →
          g.get_nodes.length + 1 ≤ fuel + (node :: visited).length →
          res1 = (if node ≠ start then result ++ [node] else result) →
          ∃ v' r',
            TraversableDigraph.dfsVisit g start (fuel + 1) node (visited, result) =
              .ok (v', r') ∧
            (∀ x ∈ visited, x ∈ v') ∧
            (∀ x ∈ v', x ∈ g.get_nodes) ∧
            v'.Nodup ∧ r'.Nodup ∧
            (∀ x ∈ r', x ∈ v') ∧
            node ∈ v' ∧
            (∀ x ∈ v', x ∈ visited ∨ Reaches g node x) ∧
            (∀ x ∈ v', x ∉ visited → ∀ y, hasEdge g x y → y ∈ v') ∧
            (∀ x, x ∈ r' ↔ x ∈ result ∨ (x ∈ v' ∧ x ∉ visited ∧ x ≠ start)) := by
        intro res1 hrnd1 hrv1 hfuel1 hres1
        obtain ⟨v', r', heq, hsub, hvn, hnd, hrnd', hrv', hseed, hreach, hclose, hR⟩ :=
          inner (succList g node) hss (node :: visited) res1 hv1 hvnd1 hrnd1 hrv1 hfuel1
        refine ⟨v', r', ?_, fun x hx => hsub x (List.mem_cons_of_mem node hx), hvn, hnd,
          hrnd', hrv', hsub node (List.mem_cons_self node visited), ?_, ?_, ?_⟩
        · rw [show TraversableDigraph.dfsVisit g start (fuel + 1) node (visited, result) =
              (do
                let succs ← g.successors node
                succs.foldlM (fun vr' n => TraversableDigraph.dfsVisit g start fuel n vr')
                  (node :: visited, if node ≠ start then result ++ [node] else result))
              by simp [TraversableDigraph.dfsVisit, hmem]]
          rw [hsucc, ← hres1]
          simpa [Except.bind, Bind.bind, Monad.toBind] using heq
        · intro x hx
          rcases hreach x hx with hx1 | ⟨y, hy, hr⟩
          · rcases List.mem_cons.mp hx1 with rfl | hx1
            · exact Or.inr (Reaches.refl x)
            · exact Or.inl hx1
          · exact Or.inr (Reaches.step hy hr)
        · intro x hx hnx y hy
          by_cases hxn : x = node
          · subst hxn
            exact hseed y hy
          · have : x ∉ node :: visited := by
              intro hc
              rcases List.mem_cons.mp hc with hc | hc
              · exact hxn hc
              · exact hnx hc
            exact hclose x hx this y hy
        · intro x
          rw [hR x, hres1]
          by_cases hns : node = start
          · rw [if_neg (not_not_intro hns)]
            constructor
            · rintro (hx | ⟨hxv, hnv, hxs⟩)
              · exact Or.inl hx
              · refine Or.inr ⟨hxv, fun hc => hnv (List.mem_cons_of_mem node hc), hxs⟩
            · rintro (hx | ⟨hxv, hnv, hxs⟩)
              · exact Or.inl hx
              · refine Or.inr ⟨hxv, ?_, hxs⟩
                intro hc
                rcases List.mem_cons.mp hc with hc | hc
                · exact hxs (hc.trans hns)
                · exact hnv hc
          · rw [if_pos hns]
            constructor
            · rintro (hx | ⟨hxv, hnv, hxs⟩)
              · rcases List.mem_append.mp hx with hx | hx
                · exact Or.inl hx
                · have hxn : x = node := List.mem_singleton.mp hx
                  subst hxn
                  exact Or.inr ⟨hsub x (List.mem_cons_self x visited), hmem, hns⟩
              · exact Or.inr ⟨hxv, fun hc => hnv (List.mem_cons_of_mem node hc), hxs⟩
            · rintro (hx | ⟨hxv, hnv, hxs⟩)
              · exact Or.inl (List.mem_append_left [node] hx)
              · by_cases hxn : x = node
                · subst hxn
                  exact Or.inl (List.mem_append_right result (List.mem_singleton_self x))
                · refine Or.inr ⟨hxv, ?_, hxs⟩
                  intro hc
                  rcases List.mem_cons.mp hc with hc | hc
                  · exact hxn hc
                  · exact hnv hc
      by_cases hns : node = start
      · refine hres result hrnd (fun x hx => List.mem_cons_of_mem node (hrv x hx))
          (by simp only [List.length_cons]; omega) ?_
        rw [if_neg (not_not_intro hns)]
      · refine hres (result ++ [node]) ?_ ?_ (by simp only [List.length_cons]; omega) (by rw [if_pos hns])
        · refine List.Nodup.append hrnd (List.nodup_singleton node) ?_
          intro x hx hc
          have : x = node := List.mem_singleton.mp hc
          subst this
          exact hmem (hrv x hx)
        · intro x hx
          rcases List.mem_append.mp hx with hx | hx
          · exact List.mem_cons_of_mem node (hrv x hx)
          · exact (List.mem_singleton.mp hx) ▸ List.mem_cons_self node visited

/-- Unfolding equation for `specPreorderVisit` at positive fuel. -/
theorem specPreorderVisit_succ (g : VersatileDigraph) (fuel : Nat) (node : String)
    (vr : List String × List String) :
    specPreorderVisit g (fuel+1) node vr =
      if node ∈ vr.1 then vr
      else
        (succList g node).foldl (fun vr' n => specPreorderVisit g fuel n vr')
          (node :: vr.1, vr.2 ++ [node]) := by
  simp [specPreorderVisit]

/-- Successful runs of `recursive_dfs` compute exactly the spec's pre-order
visit: the visited sets agree, and the code's result list is the spec's
pre-order sequence with the start-node emission filtered out. -/
theorem dfsVisit_specPreorder {g : VersatileDigraph} (start : String) :
    ∀ (fuel : Nat) (node : String) (V s v' r' : List String),
    TraversableDigraph.dfsVisit g start fuel node
        (V, s.filter (fun x => x != start)) = .ok (v', r') →
    (specPreorderVisit g fuel node (V, s)).1 = v' ∧
    (specPreorderVisit g fuel node (V, s)).2.filter (fun x => x != start) = r' := by
  intro fuel
  induction fuel with
  | zero =>
    intro node V s v' r' h
    simp [TraversableDigraph.dfsVisit] at h
  | succ fuel ih =>
    have inner : ∀ (ss : List String) (V s v' r' : List String),
        ss.foldlM (fun vr n => TraversableDigraph.dfsVisit g start fuel n vr)
          (V, s.filter (fun x => x != start)) = .ok (v', r') →
        (ss.foldl (fun vr n => specPreorderVisit g fuel n vr) (V, s)).1 = v' ∧
        (ss.foldl (fun vr n => specPreorderVisit g fuel n vr) (V, s)).2.filter
          (fun x => x != start) = r' := by
      intro ss
      induction ss with
      | nil =>
        intro V s v' r' h
        rw [List.foldlM_nil] at h
        simp only [pure, Except.pure, Except.ok.injEq, Prod.mk.injEq] at h
        exact ⟨h.1, h.2⟩
      | cons n rest ihs =>
        intro V s v' r' h
        rw [List.foldlM_cons] at h
        cases hn : TraversableDigraph.dfsVisit g start fuel n
            (V, s.filter (fun x => x != start)) with
        | error e =>
          rw [hn] at h
          simp only [Except.bind, Bind.bind, Monad.toBind] at h
          exact absurd h (by simp)
        | ok p =>
          obtain ⟨v1, r1⟩ := p
          rw [hn] at h
          simp only [Except.bind, Bind.bind, Monad.toBind] at h
          obtain ⟨h1, h2⟩ := ih n V s v1 r1 hn
          have hrw : (v1, r1) =
              ((specPreorderVisit g fuel n (V, s)).1,
               (specPreorderVisit g fuel n (V, s)).2.filter (fun x => x != start)) := by
            rw [h1, h2]
          rw [hrw] at h
          exact ihs (specPreorderVisit g fuel n (V, s)).1
            (specPreorderVisit g fuel n (V, s)).2 v' r' h
    intro node V s v' r' h
    by_cases hmem : node ∈ V
    · rw [show TraversableDigraph.dfsVisit g start (fuel+1) node
          (V, s.filter (fun x => x != start)) =
          .ok (V, s.filter (fun x => x != start)) from by
        simp [TraversableDigraph.dfsVisit, hmem]] at h
      simp only [Except.ok.injEq, Prod.mk.injEq] at h
      rw [specPreorderVisit_succ]
      simp only [hmem, if_true]
      exact ⟨h.1, h.2⟩
    · by_cases hnode : node ∈ g.get_nodes
      · have hsucc : g.successors node = .ok (succList g node) := successors_ok hnode
        rw [show TraversableDigraph.dfsVisit g start (fuel+1) node
            (V, s.filter (fun x => x != start)) =
            (do
              let succs ← g.successors node
              succs.foldlM (fun vr' n => TraversableDigraph.dfsVisit g start fuel n vr')
                (node :: V,
                 if node ≠ start then s.filter (fun x => x != start) ++ [node]
                 else s.filter (fun x => x != start)))
            from by simp [TraversableDigraph.dfsVisit, hmem]] at h
        rw [hsucc] at h
        simp only [Except.bind, Bind.bind, Monad.toBind] at h
        have hR1 : (if node ≠ start then s.filter (fun x => x != start) ++ [node]
            else s.filter (fun x => x != start)) =
            (s ++ [node]).filter (fun x => x != start) := by
          by_cases hns : node = start
          · subst hns
            simp [List.filter_append]
          · simp [List.filter_append, hns, bne_iff_ne]
        rw [hR1] at h
        have hmain := inner (succList g node) (node :: V) (s ++ [node]) v' r' h
        rw [specPreorderVisit_succ]
        simp only [hmem, if_false]
        exact hmain
      · rw [show TraversableDigraph.dfsVisit g start (fuel+1) node
            (V, s.filter (fun x => x != start)) =
            .error (.keyError ("Node " ++ node ++ " is not present in the graph."))
            from by
          simp [TraversableDigraph.dfsVisit, hmem, VersatileDigraph.successors, hnode,
            Except.bind, Bind.bind, Monad.toBind]] at h
        exact absurd h (by simp)

/-! ### Correctness of `top_sort` (Kahn's algorithm) -/

theorem indexOf_le_of_getElem {l : List String} {a : String} :
    ∀ (i : Nat) (hi : i < l.length), l.get ⟨i, hi⟩ = a → l.indexOf a ≤ i := by
  induction l with
  | nil => intro i hi; simp at hi
  | cons b l ih =>
    intro i hi hget
    cases i with
    | zero =>
      simp at hget
      simp [hget, List.indexOf_cons_self]
    | succ i =>
      by_cases hb : b = a
      · simp [hb, List.indexOf_cons_self]
      · rw [List.indexOf_cons_ne l hb]
        have := ih i (by simpa using hi) (by simpa using hget)
        omega

theorem mem_take_exists_getElem {l : List String} {a : String} {j : Nat}
    (h : a ∈ l.take j) :
    ∃ (i : Nat) (hi : i < l.length), i < j ∧ l.get ⟨i, hi⟩ = a := by
  obtain ⟨i, hi, hget⟩ := List.mem_iff_getElem.mp h
  have hmin : i < min j l.length := by simpa [List.length_take] using hi
  have hlen : i < l.length := by omega
  have hij : i < j := by omega
  rw [List.getElem_take] at hget
  exact ⟨i, hlen, hij, by simpa [List.get_eq_getElem] using hget⟩

/-- The initial in-degree fold of `top_sort`: never raises and records each
processed node's in-degree. -/
theorem top_init_fold (g : VersatileDigraph) :
    ∀ (l : List String) (d0 : Dict Int), (∀ n ∈ l, n ∈ g.get_nodes) →
    ∃ d, l.foldlM (fun d n => do
        let k ← g.in_degree n
        pure (dinsert n (k : Int) d)) d0 = .ok d ∧
      ∀ v, dget v d = if v ∈ l then some ((predList g v).length : Int) else dget v d0 := by
  intro l
  induction l with
  | nil =>
    intro d0 _
    exact ⟨d0, by simp [List.foldlM, pure, Except.pure], by simp⟩
  | cons n rest ih =>
    intro d0 hmem
    obtain ⟨d, hd, hchar⟩ := ih (dinsert n ((predList g n).length : Int) d0)
      (fun x hx => hmem x (List.mem_cons_of_mem n hx))
    refine ⟨d, ?_, ?_⟩
    · simp only [List.foldlM, in_degree_ok (hmem n (List.mem_cons_self n rest)),
        Except.bind, Bind.bind, Monad.toBind, pure, Except.pure]
      exact hd
    · intro v
      rw [hchar v]
      by_cases hvr : v ∈ rest
      · simp [hvr]
      · by_cases hvn : v = n
        · subst hvn
          simp [hvr, dget_dinsert_self]
        · simp [hvr, hvn, dget_dinsert_ne hvn]

/-- The decrement loop over a node's successors inside `top_sort`: with all
counters present and a duplicate-free successor list, it decrements each
listed counter once and appends exactly the nodes whose counter was 1, in
order. -/
theorem topDecr_fold :
    ∀ (ss : List String) (indeg : Dict Int) (queue : List String),
    ss.Nodup → (∀ v ∈ ss, (dget v indeg).isSome) →
    ∃ iq, ss.foldlM SortableDigraph.topDecr (indeg, queue) = .ok iq ∧
      (∀ v, dget v iq.1 =
        if v ∈ ss then (dget v indeg).map (· - 1) else dget v indeg) ∧
      iq.2 = queue ++ ss.filter (fun v => dget v indeg == some 1) := by
  intro ss
  induction ss with
  | nil =>
    intro indeg queue _ _
    exact ⟨(indeg, queue), by simp [List.foldlM, pure, Except.pure], by simp, by simp⟩
  | cons v rest ih =>
    intro indeg queue hnd hsome
    obtain ⟨d, hd⟩ := Option.isSome_iff_exists.mp (hsome v (List.mem_cons_self v rest))
    have hstep : SortableDigraph.topDecr (indeg, queue) v =
        .ok (dinsert v (d - 1) indeg, if d - 1 = 0 then queue ++ [v] else queue) := by
      simp [SortableDigraph.topDecr, hd]
    have hnv : v ∉ rest := (List.nodup_cons.mp hnd).1
    have hsome' : ∀ w ∈ rest, (dget w (dinsert v (d - 1) indeg)).isSome := by
      intro w hw
      have hwv : w ≠ v := fun hc => hnv (hc ▸ hw)
      rw [dget_dinsert_ne hwv]
      exact hsome w (List.mem_cons_of_mem v hw)
    obtain ⟨iq, hiq, hchar, hqueue⟩ := ih (dinsert v (d - 1) indeg)
      (if d - 1 = 0 then queue ++ [v] else queue) (List.nodup_cons.mp hnd).2 hsome'
    refine ⟨iq, ?_, ?_, ?_⟩
    · simp only [List.foldlM, hstep, Except.bind, Bind.bind, Monad.toBind]
      exact hiq
    · intro w
      rw [hchar w]
      by_cases hw : w ∈ rest
      · have hwv : w ≠ v := fun hc => hnv (hc ▸ hw)
        simp [hw, dget_dinsert_ne hwv]
      · by_cases hwv : w = v
        · subst hwv
          simp [hw, dget_dinsert_self, hd]
        · simp [hw, hwv, dget_dinsert_ne hwv]
    · rw [hqueue]
      have hfcong : rest.filter (fun w => dget w (dinsert v (d - 1) indeg) == some 1) =
          rest.filter (fun w => dget w indeg == some 1) := by
        refine List.filter_congr ?_
        intro w hw
        have hwv : w ≠ v := fun hc => hnv (hc ▸ hw)
        rw [dget_dinsert_ne hwv]
      rw [hfcong]
      have hcond : (dget v indeg == some 1) = decide (d - 1 = 0) := by
        rw [hd]
        by_cases hone : d - 1 = 0
        · have hd1 : d = 1 := by omega
          subst hd1
          rw [decide_eq_true hone]
          simp
        · rw [decide_eq_false hone]
          have hdne : d ≠ 1 := by omega
          simp [hdne]
      rw [List.filter_cons, hcond]
      by_cases hz : d - 1 = 0
      · simp [hz]
      · simp [hz]

/-- The running counter of Kahn's algorithm is zero exactly when every
predecessor has been processed. -/
theorem counter_zero_iff {g : VersatileDigraph} (hwf : WF g) {result : List String}
    (hres : ∀ x ∈ result, x ∈ g.get_nodes) (hnd : result.Nodup) (v : String) :
    ((predList g v).length : Int) -
        ((result.filter (fun u => decide (hasEdge g u v))).length : Int) = 0 ↔
      ∀ u ∈ predList g v, u ∈ result := by
  have hFP : ∀ x ∈ result.filter (fun u => decide (hasEdge g u v)), x ∈ predList g v := by
    intro x hx
    rw [List.mem_filter] at hx
    exact mem_predList_iff.mpr ⟨hres x hx.1, of_decide_eq_true hx.2⟩
  have hFnd : (result.filter (fun u => decide (hasEdge g u v))).Nodup := hnd.filter _
  have hPnd : (predList g v).Nodup := hwf.nodes_nodup.filter _
  have hlen : (result.filter (fun u => decide (hasEdge g u v))).length ≤
      (predList g v).length := List.Subperm.length_le (hFnd.subperm hFP)
  constructor
  · intro hz u hu
    have heq : (predList g v).length =
        (result.filter (fun u => decide (hasEdge g u v))).length := by omega
    have hperm := List.Subperm.perm_of_length_le (hFnd.subperm hFP) (le_of_eq heq)
    have hu' : u ∈ result.filter (fun u => decide (hasEdge g u v)) :=
      hperm.symm.mem_iff.mp hu
    exact (List.mem_filter.mp hu').1
  · intro hsub
    have hPF : ∀ x ∈ predList g v, x ∈ result.filter (fun u => decide (hasEdge g u v)) := by
      intro x hx
      rw [List.mem_filter]
      exact ⟨hsub x hx, decide_eq_true (mem_predList_iff.mp hx).2⟩
    have := List.Subperm.length_le (hPnd.subperm hPF)
    omega

theorem topLoop_cons_succ (g : VersatileDigraph) (fuel : Nat) (indeg : Dict Int)
    (node : String) (rest result : List String) :
    SortableDigraph.topLoop g (fuel + 1) indeg (node :: rest) result = (do
      let succs ← g.successors node
      let iq ← succs.foldlM SortableDigraph.topDecr (indeg, rest)
      SortableDigraph.topLoop g fuel iq.1 iq.2 (result ++ [node])) := by
  simp only [SortableDigraph.topLoop]

/-- Main invariant proof for the `while queue:` loop of `top_sort`: provided
the running counters record, for every node, its in-degree minus the edges
from already-emitted nodes, the queue holds exactly the nodes whose
predecessors are all emitted, and enough fuel remains, the loop terminates
and emits a duplicate-free list that is predecessor-closed in order. -/
theorem topLoop_spec {g : VersatileDigraph} (hwf : WF g) :
    ∀ (fuel : Nat) (indeg : Dict Int) (queue result : List String),
    (∀ x ∈ result ++ queue, x ∈ g.get_nodes) →
    (result ++ queue).Nodup →
    (∀ v ∈ g.get_nodes, dget v indeg =
      some (((predList g v).length : Int) -
        ((result.filter (fun u => decide (hasEdge g u v))).length : Int))) →
    (∀ v ∈ g.get_nodes, (v ∈ result ++ queue ↔ ∀ u ∈ predList g v, u ∈ result)) →
    (∀ (i : Nat) (hi : i < result.length), ∀ u ∈ predList g (result.get ⟨i, hi⟩),
      u ∈ result.take i) →
    g.get_nodes.length + 1 ≤ fuel + result.length →
    ∃ res, SortableDigraph.topLoop g fuel indeg queue result = .ok res ∧
      (∀ x ∈ res, x ∈ g.get_nodes) ∧ res.Nodup ∧
      (∀ v ∈ g.get_nodes, (v ∈ res ↔ ∀ u ∈ predList g v, u ∈ res)) ∧
      (∀ (i : Nat) (hi : i < res.length), ∀ u ∈ predList g (res.get ⟨i, hi⟩),
        u ∈ res.take i) := by
  intro fuel
  induction fuel with
  | zero =>
    intro indeg queue result hA hB hC hD hE hfuel
    cases queue with
    | nil =>
      refine ⟨result, rfl, fun x hx => hA x (by simpa using hx), by simpa using hB,
        fun v hv => by simpa using hD v hv, hE⟩
    | cons node rest =>
      have hle := List.Subperm.length_le (hB.subperm hA)
      simp [List.length_append] at hle
      omega
  | succ fuel ih =>
    intro indeg queue result hA hB hC hD hE hfuel
    cases queue with
    | nil =>
      refine ⟨result, rfl, fun x hx => hA x (by simpa using hx), by simpa using hB,
        fun v hv => by simpa using hD v hv, hE⟩
    | cons node rest =>
      have hnode_mem : node ∈ result ++ node :: rest :=
        List.mem_append_right result (List.mem_cons_self node rest)
      have hnoden : node ∈ g.get_nodes := hA node hnode_mem
      have hsucc : g.successors node = .ok (succList g node) := successors_ok hnoden
      have hssnd : (succList g node).Nodup := hwf.succ_nodup node
      have hsssub : ∀ v ∈ succList g node, v ∈ g.get_nodes :=
        fun v hv => hwf.succ_mem hv
      have hsome : ∀ v ∈ succList g node, (dget v indeg).isSome := by
        intro v hv
        rw [hC v (hsssub v hv)]
        rfl
      obtain ⟨iq, hiq, hchar, hqeq⟩ := topDecr_fold (succList g node) indeg rest hssnd hsome
      have hresA : ∀ x ∈ result, x ∈ g.get_nodes :=
        fun x hx => hA x (List.mem_append_left _ hx)
      have hresnd : result.Nodup := (List.nodup_append.mp hB).1
      have hres'A : ∀ x ∈ result ++ [node], x ∈ g.get_nodes := by
        intro x hx
        rcases List.mem_append.mp hx with hx | hx
        · exact hresA x hx
        · exact (List.mem_singleton.mp hx) ▸ hnoden
      have hnode_nr : node ∉ result := by
        intro hc
        exact (List.nodup_append.mp hB).2.2 hc (List.mem_cons_self node rest)
      have hres'nd : (result ++ [node]).Nodup :=
        List.Nodup.append hresnd (List.nodup_singleton node)
          (fun a ha hc => hnode_nr ((List.mem_singleton.mp hc) ▸ ha))
      have hcount : ∀ v, ((result ++ [node]).filter
            (fun u => decide (hasEdge g u v))).length =
          (result.filter (fun u => decide (hasEdge g u v))).length +
            (if v ∈ succList g node then 1 else 0) := by
        intro v
        rw [List.filter_append]
        by_cases hv : v ∈ succList g node
        · have hdec : decide (hasEdge g node v) = true := decide_eq_true hv
          simp [List.filter_cons, hdec, hv]
        · have hdec : decide (hasEdge g node v) = false := decide_eq_false hv
          simp [List.filter_cons, hdec, hv]
      have henq_cond : ∀ v, v ∈ (succList g node).filter
            (fun v => dget v indeg == some 1) ↔
          v ∈ succList g node ∧ dget v indeg = some 1 := by
        intro v
        rw [List.mem_filter]
        constructor
        · exact fun h => ⟨h.1, by simpa using h.2⟩
        · exact fun h => ⟨h.1, by simp [h.2]⟩
      have henq_not : ∀ v, v ∈ (succList g node).filter
            (fun v => dget v indeg == some 1) → v ∉ result ++ node :: rest := by
        intro v hv hvin
        obtain ⟨hvs, hv1⟩ := (henq_cond v).mp hv
        have hvn : v ∈ g.get_nodes := hsssub v hvs
        have hpre : ∀ u ∈ predList g v, u ∈ result := (hD v hvn).mp hvin
        have hz := (counter_zero_iff hwf hresA hresnd v).mpr hpre
        rw [hC v hvn] at hv1
        have : ((predList g v).length : Int) -
            ((result.filter (fun u => decide (hasEdge g u v))).length : Int) = 1 := by
          exact_mod_cast Option.some.inj hv1
        omega
      have hA' : ∀ x ∈ (result ++ [node]) ++ (rest ++ (succList g node).filter
            (fun v => dget v indeg == some 1)), x ∈ g.get_nodes := by
        intro x hx
        rcases List.mem_append.mp hx with hx | hx
        · exact hres'A x hx
        · rcases List.mem_append.mp hx with hx | hx
          · exact hA x (List.mem_append_right _ (List.mem_cons_of_mem node hx))
          · exact hsssub x ((henq_cond x).mp hx).1
      have hB' : ((result ++ [node]) ++ (rest ++ (succList g node).filter
            (fun v => dget v indeg == some 1))).Nodup := by
        have hassoc : (result ++ [node]) ++ (rest ++ (succList g node).filter
              (fun v => dget v indeg == some 1)) =
            (result ++ node :: rest) ++ (succList g node).filter
              (fun v => dget v indeg == some 1) := by
          simp
        rw [hassoc]
        exact List.Nodup.append hB (hssnd.filter _)
          (fun a ha hae => henq_not a hae ha)
      have hC' : ∀ v ∈ g.get_nodes, dget v iq.1 =
          some (((predList g v).length : Int) -
            (((result ++ [node]).filter (fun u => decide (hasEdge g u v))).length : Int)) := by
        intro v hvn
        rw [hchar v, hcount v]
        by_cases hv : v ∈ succList g node
        · rw [if_pos hv, hC v hvn, if_pos hv, Option.map_some']
          congr 1
          push_cast
          ring
        · rw [if_neg hv, hC v hvn, if_neg hv]
          congr 2
      have hmap0 : ∀ x, x ∈ result ++ node :: rest →
          x ∈ (result ++ [node]) ++ (rest ++ (succList g node).filter
            (fun v => dget v indeg == some 1)) := by
        intro x hx
        rcases List.mem_append.mp hx with hx | hx
        · exact List.mem_append_left _ (List.mem_append_left _ hx)
        · rcases List.mem_cons.mp hx with rfl | hx
          · exact List.mem_append_left _
              (List.mem_append_right _ (List.mem_singleton_self x))
          · exact List.mem_append_right _ (List.mem_append_left _ hx)
      have hD' : ∀ v ∈ g.get_nodes, (v ∈ (result ++ [node]) ++ (rest ++
            (succList g node).filter (fun v => dget v indeg == some 1)) ↔
          ∀ u ∈ predList g v, u ∈ result ++ [node]) := by
        intro v hvn
        constructor
        · intro hv
          have hold : v ∈ result ++ node :: rest ∨ v ∈ (succList g node).filter
              (fun v => dget v indeg == some 1) := by
            rcases List.mem_append.mp hv with hx | hx
            · rcases List.mem_append.mp hx with hx | hx
              · exact Or.inl (List.mem_append_left _ hx)
              · exact Or.inl ((List.mem_singleton.mp hx) ▸ hnode_mem)
            · rcases List.mem_append.mp hx with hx | hx
              · exact Or.inl (List.mem_append_right _ (List.mem_cons_of_mem node hx))
              · exact Or.inr hx
          rcases hold with hv0 | hv0
          · intro u hu
            exact List.mem_append_left _ ((hD v hvn).mp hv0 u hu)
          · obtain ⟨hvs, hv1⟩ := (henq_cond v).mp hv0
            rw [hC v hvn] at hv1
            have hone : ((predList g v).length : Int) -
                ((result.filter (fun u => decide (hasEdge g u v))).length : Int) = 1 := by
              exact_mod_cast Option.some.inj hv1
            have hz : ((predList g v).length : Int) -
                (((result ++ [node]).filter
                  (fun u => decide (hasEdge g u v))).length : Int) = 0 := by
              rw [hcount v, if_pos hvs]
              push_cast
              omega
            exact (counter_zero_iff hwf hres'A hres'nd v).mp hz
        · intro hsub
          by_cases hold : ∀ u ∈ predList g v, u ∈ result
          · exact hmap0 v ((hD v hvn).mpr hold)
          · push_neg at hold
            obtain ⟨u, hu, hunr⟩ := hold
            have hun : u = node := by
              rcases List.mem_append.mp (hsub u hu) with hx | hx
              · exact absurd hx hunr
              · exact List.mem_singleton.mp hx
            subst hun
            have hvs : v ∈ succList g u := (mem_predList_iff.mp hu).2
            have hz := (counter_zero_iff hwf hres'A hres'nd v).mpr hsub
            rw [hcount v, if_pos hvs] at hz
            have hone : dget v indeg = some 1 := by
              rw [hC v hvn]
              congr 1
              push_cast at hz
              omega
            exact List.mem_append_right _
              (List.mem_append_right _ ((henq_cond v).mpr ⟨hvs, hone⟩))
      have hE' : ∀ (i : Nat) (hi : i < (result ++ [node]).length),
          ∀ u ∈ predList g ((result ++ [node]).get ⟨i, hi⟩),
            u ∈ (result ++ [node]).take i := by
        intro i hi u hu
        by_cases hilt : i < result.length
        · have hget : (result ++ [node]).get ⟨i, hi⟩ = result.get ⟨i, hilt⟩ := by
            simp [List.get_eq_getElem, List.getElem_append_left hilt]
          rw [hget] at hu
          rw [List.take_append_of_le_length (le_of_lt hilt)]
          exact hE i hilt u hu
        · have hieq : i = result.length := by
            simp only [List.length_append, List.length_singleton] at hi
            omega
          have hget : (result ++ [node]).get ⟨i, hi⟩ = node := by
            subst hieq
            simp [List.get_eq_getElem]
          rw [hget] at hu
          have hpre : ∀ w ∈ predList g node, w ∈ result := (hD node hnoden).mp hnode_mem
          rw [hieq, List.take_append_of_le_length (le_refl _), List.take_length]
          exact hpre u hu
      have hfuel' : g.get_nodes.length + 1 ≤ fuel + (result ++ [node]).length := by
        simp only [List.length_append, List.length_singleton]
        omega
      obtain ⟨res, hres, hresA', hresnd', hresD', hresE'⟩ :=
        ih iq.1 (rest ++ (succList g node).filter (fun v => dget v indeg == some 1))
          (result ++ [node]) hA' hB' hC' hD' hE' hfuel'
      refine ⟨res, ?_, hresA', hresnd', hresD', hresE'⟩
      rw [topLoop_cons_succ, hsucc]
      simp only [Except.bind, Bind.bind, Monad.toBind]
      rw [hiq]
      simp only [Except.bind]
      rw [hqeq]
      exact hres

/-- Running `top_sort`: it terminates with some emitted list `res` satisfying
the final loop invariants, and returns `res` or the cycle error according to
the final length check. -/
theorem top_sort_run {g : VersatileDigraph} (hwf : WF g) :
    ∃ res, SortableDigraph.top_sort g =
        (if res.length ≠ g.get_nodes.length then
          .error (.valueError "Graph has at least one cycle, topological sort not possible")
        else .ok res) ∧
      (∀ x ∈ res, x ∈ g.get_nodes) ∧ res.Nodup ∧
      (∀ v ∈ g.get_nodes, (v ∈ res ↔ ∀ u ∈ predList g v, u ∈ res)) ∧
      (∀ (i : Nat) (hi : i < res.length), ∀ u ∈ predList g (res.get ⟨i, hi⟩),
        u ∈ res.take i) := by
  obtain ⟨indeg0, hind, hchar0⟩ := top_init_fold g g.get_nodes [] (fun n hn => hn)
  have hA : ∀ x ∈ ([] : List String) ++
      g.get_nodes.filter (fun n => dget n indeg0 == some 0), x ∈ g.get_nodes := by
    intro x hx
    simp only [List.nil_append] at hx
    exact (List.mem_filter.mp hx).1
  have hB : (([] : List String) ++
      g.get_nodes.filter (fun n => dget n indeg0 == some 0)).Nodup := by
    simp only [List.nil_append]
    exact hwf.nodes_nodup.filter _
  have hC : ∀ v ∈ g.get_nodes, dget v indeg0 =
      some (((predList g v).length : Int) -
        ((([] : List String).filter (fun u => decide (hasEdge g u v))).length : Int)) := by
    intro v hv
    rw [hchar0 v, if_pos hv]
    simp
  have hD : ∀ v ∈ g.get_nodes, (v ∈ ([] : List String) ++
      g.get_nodes.filter (fun n => dget n indeg0 == some 0) ↔
        ∀ u ∈ predList g v, u ∈ ([] : List String)) := by
    intro v hv
    simp only [List.nil_append, List.mem_filter, List.not_mem_nil]
    rw [hchar0 v, if_pos hv]
    constructor
    · intro h u hu
      have : ((predList g v).length : Int) = 0 := by simpa using h.2
      have hnil : predList g v = [] := List.length_eq_zero.mp (by exact_mod_cast this)
      rw [hnil] at hu
      simp at hu
    · intro h
      have hnil : predList g v = [] := List.eq_nil_iff_forall_not_mem.mpr (fun u hu => h u hu)
      refine ⟨hv, ?_⟩
      simp [hnil]
  have hE : ∀ (i : Nat) (hi : i < ([] : List String).length),
      ∀ u ∈ predList g (([] : List String).get ⟨i, hi⟩),
        u ∈ ([] : List String).take i := by
    intro i hi
    simp at hi
  have hfuel : g.get_nodes.length + 1 ≤
      (g.get_nodes.length + 1) + ([] : List String).length := by simp
  obtain ⟨res, hloop, hresA, hresnd, hresD, hresE⟩ :=
    topLoop_spec hwf (g.get_nodes.length + 1) indeg0
      (g.get_nodes.filter (fun n => dget n indeg0 == some 0)) [] hA hB hC hD hE hfuel
  refine ⟨res, ?_, hresA, hresnd, hresD, hresE⟩
  simp only [SortableDigraph.top_sort]
  rw [hind]
  simp only [Except.bind, Bind.bind, Monad.toBind]
  rw [hloop]
  show (if res.length ≠ g.get_nodes.length then
      Except.error (PyError.valueError
        "Graph has at least one cycle, topological sort not possible")
    else pure res) = _
  by_cases hlen : res.length ≠ g.get_nodes.length
  · rw [if_pos hlen, if_pos hlen]
  · rw [if_neg hlen, if_neg hlen]
    rfl

/-- In an acyclic graph, a predecessor-closed list of nodes that omits some
node yields an infinite backward walk inside a finite set, hence a cycle:
contradiction.  So the list contains every node. -/
theorem all_mem_of_acyclic {g : VersatileDigraph} (hac : Acyclic g)
    {res : List String}
    (hD : ∀ v ∈ g.get_nodes, (v ∈ res ↔ ∀ u ∈ predList g v, u ∈ res)) :
    ∀ v ∈ g.get_nodes, v ∈ res := by
  by_contra hcon
  push_neg at hcon
  obtain ⟨v₀, hv₀n, hv₀r⟩ := hcon
  have hv₀S : v₀ ∈ g.get_nodes.filter (fun x => decide (x ∉ res)) :=
    List.mem_filter.mpr ⟨hv₀n, decide_eq_true hv₀r⟩
  have hstep : ∀ v, v ∈ g.get_nodes.filter (fun x => decide (x ∉ res)) →
      ∃ u, u ∈ g.get_nodes.filter (fun x => decide (x ∉ res)) ∧ hasEdge g u v := by
    intro v hv
    obtain ⟨hvn, hvr⟩ := List.mem_filter.mp hv
    have hvr' : v ∉ res := of_decide_eq_true hvr
    have hnall : ¬ ∀ u ∈ predList g v, u ∈ res := fun hc => hvr' ((hD v hvn).mpr hc)
    push_neg at hnall
    obtain ⟨u, hu, hur⟩ := hnall
    exact ⟨u, List.mem_filter.mpr ⟨(mem_predList_iff.mp hu).1, decide_eq_true hur⟩,
      (mem_predList_iff.mp hu).2⟩
  choose f hf1 hf2 using hstep
  let F : {x // x ∈ g.get_nodes.filter (fun x => decide (x ∉ res))} →
      {x // x ∈ g.get_nodes.filter (fun x => decide (x ∉ res))} :=
    fun p => ⟨f p.1 p.2, hf1 p.1 p.2⟩
  have hFedge : ∀ p, hasEdge g (F p).1 p.1 := fun p => hf2 p.1 p.2
  have hchain : ∀ (d k : Nat), Reaches g ((F^[k + d]) ⟨v₀, hv₀S⟩).1
      ((F^[k]) ⟨v₀, hv₀S⟩).1 := by
    intro d
    induction d with
    | zero => intro k; exact Reaches.refl _
    | succ d ihd =>
      intro k
      have h1 : (F^[k + (d + 1)]) ⟨v₀, hv₀S⟩ = F ((F^[k + d]) ⟨v₀, hv₀S⟩) := by
        rw [show k + (d + 1) = (k + d) + 1 by ring, Function.iterate_succ_apply']
      rw [h1]
      exact Reaches.step (hFedge _) (ihd k)
  have key : ∀ i j : Nat, i < j →
      (F^[i]) ⟨v₀, hv₀S⟩ = (F^[j]) ⟨v₀, hv₀S⟩ → False := by
    intro i j hlt hequ
    have hedge : hasEdge g ((F^[i + 1]) ⟨v₀, hv₀S⟩).1 ((F^[i]) ⟨v₀, hv₀S⟩).1 := by
      rw [Function.iterate_succ_apply']
      exact hFedge _
    have hreach : Reaches g ((F^[i]) ⟨v₀, hv₀S⟩).1 ((F^[i + 1]) ⟨v₀, hv₀S⟩).1 := by
      have h2 := hchain (j - i - 1) (i + 1)
      rw [show (i + 1) + (j - i - 1) = j by omega] at h2
      rw [hequ]
      exact h2
    exact hac _ _ hedge hreach
  have hmaps : ∀ k ∈ Finset.range ((g.get_nodes.filter
        (fun x => decide (x ∉ res))).length + 1),
      ((F^[k]) ⟨v₀, hv₀S⟩).1 ∈ (g.get_nodes.filter (fun x => decide (x ∉ res))).toFinset :=
    fun k _ => List.mem_toFinset.mpr ((F^[k]) ⟨v₀, hv₀S⟩).2
  have hcard : (g.get_nodes.filter (fun x => decide (x ∉ res))).toFinset.card <
      (Finset.range ((g.get_nodes.filter (fun x => decide (x ∉ res))).length + 1)).card := by
    rw [Finset.card_range]
    exact lt_of_le_of_lt (List.toFinset_card_le _) (by omega)
  obtain ⟨i, _, j, _, hij, heq⟩ :=
    Finset.exists_ne_map_eq_of_card_lt_of_maps_to hcard hmaps
  rcases Nat.lt_or_ge i j with h | h
  · exact key i j h (Subtype.ext heq)
  · have hji : j < i := by omega
    exact key j i hji (Subtype.ext heq.symm)

/-- A list of all nodes in which every node's predecessors appear earlier
contradicts the existence of a cycle. -/
theorem cyclic_not_complete {g : VersatileDigraph} (hwf : WF g) {res : List String}
    (hnac : ¬ Acyclic g)
    (hA : ∀ x ∈ res, x ∈ g.get_nodes) (hnd : res.Nodup)
    (hE : ∀ (i : Nat) (hi : i < res.length), ∀ u ∈ predList g (res.get ⟨i, hi⟩),
      u ∈ res.take i)
    (hlen : res.length = g.get_nodes.length) : False := by
  have hperm : res.Perm g.get_nodes :=
    List.Subperm.perm_of_length_le (hnd.subperm hA) (le_of_eq hlen.symm)
  have hall : ∀ v ∈ g.get_nodes, v ∈ res := fun v hv => hperm.mem_iff.mpr hv
  have hbefore : ∀ u v, hasEdge g u v → v ∈ res →
      u ∈ res ∧ res.indexOf u < res.indexOf v := by
    intro u v he hv
    have hj : res.indexOf v < res.length := List.indexOf_lt_length.mpr hv
    have hgetv : res.get ⟨res.indexOf v, hj⟩ = v := by
      simp [List.get_eq_getElem, List.getElem_indexOf]
    have hu : u ∈ predList g v := mem_predList_iff.mpr ⟨hwf.tail_mem he, he⟩
    have htake := hE (res.indexOf v) hj u (by rw [hgetv]; exact hu)
    obtain ⟨i, hilen, hij, hgetu⟩ := mem_take_exists_getElem htake
    constructor
    · rw [← hgetu]
      exact List.get_mem res i hilen
    · have := indexOf_le_of_getElem i hilen hgetu
      omega
  have hmono : ∀ u v, Reaches g u v → v ∈ res →
      u = v ∨ (u ∈ res ∧ res.indexOf u < res.indexOf v) := by
    intro u v hr
    induction hr with
    | refl a => exact fun _ => Or.inl rfl
    | step he hr ihs =>
      rename_i p q r
      intro hrres
      rcases ihs hrres with rfl | ⟨hqres, hqlt⟩
      · exact Or.inr (hbefore p q he hrres)
      · obtain ⟨hpres, hplt⟩ := hbefore p q he hqres
        exact Or.inr ⟨hpres, by omega⟩
  unfold Acyclic at hnac
  push_neg at hnac
  obtain ⟨u, v, he, hr⟩ := hnac
  have hvres : v ∈ res := hall v (hwf.succ_mem he)
  have hures : u ∈ res := hall u (hwf.tail_mem he)
  obtain ⟨-, h1⟩ := hbefore u v he hvres
  rcases hmono v u hr hures with hvu | ⟨-, h2⟩
  · subst hvu
    omega
  · omega

/-! ### Claims -/

/-- C2 (code evaluated at the failing input): on the cyclic graph
`A → B → A`, fully consuming `bfs("A")` yields `[B, A]`, which contains the
start node `A` — contradicting the claim (and the function's own docstring)
that the start node is never emitted.  The start node is never added to
`visited`, so a cycle back to it re-emits it. -/
theorem claim_C2 :
    TraversableDigraph.bfs gCycleAB (some "A") = .ok ["B", "A"] ∧
      "A" ∈ (["B", "A"] : List String) := by
  constructor
  · decide
  · decide

/-- C5: every graph state reachable through the `DAG` subclass is acyclic,
and an `add_edge(tail, head)` for which a path from `head` to `tail` already
exists (the self-loop `tail = head` included, via the reflexive path) fails
with the cycle `ValueError` and returns the state unchanged. -/
theorem claim_C5 :
    (∀ ops : List Op, Acyclic (runDAG VersatileDigraph.emptyGraph ops)) ∧
    (∀ (ops : List Op) (t hd : String) (a : EdgeArgs),
      Reaches (runDAG VersatileDigraph.emptyGraph ops) hd t →
      DAG.add_edge (runDAG VersatileDigraph.emptyGraph ops) t hd a =
        (runDAG VersatileDigraph.emptyGraph ops,
          some (.valueError
            ("Adding edge from " ++ t ++ " to " ++ hd ++ " would create a cycle")))) := by
  constructor
  · exact fun ops => (wf_acyclic_runDAG wf_emptyGraph acyclic_emptyGraph ops).2
  · intro ops t hd a hr
    exact dag_add_edge_of_reaches
      (wf_acyclic_runDAG wf_emptyGraph acyclic_emptyGraph ops).1 a hr

/-- Witness for C5 at the spec's own example: the DAG `P → Q → R` rejects
`add_edge("R", "P")` with the cycle error and stays unchanged. -/
theorem claim_C5_witness :
    Acyclic (runDAG VersatileDigraph.emptyGraph
      [Op.node "P" 0, Op.node "Q" 0, Op.node "R" 0, Op.edge "P" "Q" {}, Op.edge "Q" "R" {}]) ∧
    DAG.add_edge (runDAG VersatileDigraph.emptyGraph
        [Op.node "P" 0, Op.node "Q" 0, Op.node "R" 0, Op.edge "P" "Q" {}, Op.edge "Q" "R" {}]) "R" "P" {} =
      (runDAG VersatileDigraph.emptyGraph [Op.node "P" 0, Op.node "Q" 0, Op.node "R" 0, Op.edge "P" "Q" {}, Op.edge "Q" "R" {}],
        some (.valueError
          ("Adding edge from " ++ "R" ++ " to " ++ "P" ++ " would create a cycle"))) :=
  by
  have h1 : hasEdge (runDAG VersatileDigraph.emptyGraph
      [Op.node "P" 0, Op.node "Q" 0, Op.node "R" 0, Op.edge "P" "Q" {}, Op.edge "Q" "R" {}]) "P" "Q" := by decide
  have h2 : hasEdge (runDAG VersatileDigraph.emptyGraph
      [Op.node "P" 0, Op.node "Q" 0, Op.node "R" 0, Op.edge "P" "Q" {}, Op.edge "Q" "R" {}]) "Q" "R" := by decide
  exact ⟨claim_C5.1 [Op.node "P" 0, Op.node "Q" 0, Op.node "R" 0, Op.edge "P" "Q" {}, Op.edge "Q" "R" {}],
    claim_C5.2 [Op.node "P" 0, Op.node "Q" 0, Op.node "R" 0, Op.edge "P" "Q" {}, Op.edge "Q" "R" {}] "R" "P" {}
      (Reaches.step h1 (Reaches.step h2 (Reaches.refl "R")))⟩

/-- C9: after any successful sequence of `add_node`/`add_edge` calls on the
base graph, every recorded edge's tail and head are nodes, and `successors`/
`predecessors` of a present node return only node identifiers. -/
theorem claim_C9 (ops : List Op)
    (_hok : baseOk VersatileDigraph.emptyGraph ops = true) :
    (∀ t hd : String, hasEdge (runBase VersatileDigraph.emptyGraph ops) t hd →
      t ∈ (runBase VersatileDigraph.emptyGraph ops).get_nodes ∧
      hd ∈ (runBase VersatileDigraph.emptyGraph ops).get_nodes) ∧
    (∀ n ∈ (runBase VersatileDigraph.emptyGraph ops).get_nodes,
      ∃ l, (runBase VersatileDigraph.emptyGraph ops).successors n = .ok l ∧
        ∀ v ∈ l, v ∈ (runBase VersatileDigraph.emptyGraph ops).get_nodes) ∧
    (∀ n ∈ (runBase VersatileDigraph.emptyGraph ops).get_nodes,
      ∃ l, (runBase VersatileDigraph.emptyGraph ops).predecessors n = .ok l ∧
        ∀ v ∈ l, v ∈ (runBase VersatileDigraph.emptyGraph ops).get_nodes) := by
  have hwf := wf_runBase wf_emptyGraph ops
  refine ⟨fun t hd he => ⟨hwf.tail_mem he, hwf.succ_mem he⟩,
    fun n hn => ⟨succList _ n, successors_ok hn, fun v hv => hwf.succ_mem hv⟩,
    fun n hn => ⟨predList _ n, predecessors_ok hn,
      fun v hv => (mem_predList_iff.mp hv).1⟩⟩

/-- Witness for C9 on the run `add_node("A", 5); add_edge("A", "B")`. -/
theorem claim_C9_witness :
    baseOk VersatileDigraph.emptyGraph [Op.node "A" 5, Op.edge "A" "B" {}] = true ∧
    ((∀ t hd : String,
      hasEdge (runBase VersatileDigraph.emptyGraph [Op.node "A" 5, Op.edge "A" "B" {}]) t hd →
      t ∈ (runBase VersatileDigraph.emptyGraph [Op.node "A" 5, Op.edge "A" "B" {}]).get_nodes ∧
      hd ∈ (runBase VersatileDigraph.emptyGraph [Op.node "A" 5, Op.edge "A" "B" {}]).get_nodes) ∧
    (∀ n ∈ (runBase VersatileDigraph.emptyGraph [Op.node "A" 5, Op.edge "A" "B" {}]).get_nodes,
      ∃ l, (runBase VersatileDigraph.emptyGraph [Op.node "A" 5, Op.edge "A" "B" {}]).successors n = .ok l ∧
        ∀ v ∈ l, v ∈ (runBase VersatileDigraph.emptyGraph [Op.node "A" 5, Op.edge "A" "B" {}]).get_nodes) ∧
    (∀ n ∈ (runBase VersatileDigraph.emptyGraph [Op.node "A" 5, Op.edge "A" "B" {}]).get_nodes,
      ∃ l, (runBase VersatileDigraph.emptyGraph [Op.node "A" 5, Op.edge "A" "B" {}]).predecessors n = .ok l ∧
        ∀ v ∈ l, v ∈ (runBase VersatileDigraph.emptyGraph [Op.node "A" 5, Op.edge "A" "B" {}]).get_nodes)) :=
  ⟨by decide, claim_C9 [Op.node "A" 5, Op.edge "A" "B" {}] (by decide)⟩

/-- C10: `dfs(start)` and (consuming) `bfs(start)` with an explicit start node
absent from the graph fail with the `KeyError` raised by the underlying
`successors` lookup rather than returning an empty sequence. -/
theorem claim_C10 (g : VersatileDigraph) (s : String) (hs : s ∉ g.get_nodes) :
    TraversableDigraph.dfs g (some s) =
      .error (.keyError ("Node " ++ s ++ " is not present in the graph.")) ∧
    TraversableDigraph.bfs g (some s) =
      .error (.keyError ("Node " ++ s ++ " is not present in the graph.")) := by
  have hsucc : g.successors s =
      .error (.keyError ("Node " ++ s ++ " is not present in the graph.")) := by
    simp [successors, hs]
  constructor
  · simp [TraversableDigraph.dfs, TraversableDigraph.dfsFrom, TraversableDigraph.dfsVisit,
      hsucc, Except.bind, Bind.bind, Monad.toBind]
  · simp [TraversableDigraph.bfs, TraversableDigraph.bfsFrom, hsucc,
      Except.bind, Bind.bind, Monad.toBind]

/-- C7: after a successful `add_edge(u, v)`, `v` is in `successors(u)` and `u`
is in `predecessors(v)`; and for every present node, `out_degree`/`in_degree`
equal the lengths of `successors`/`predecessors`. -/
theorem claim_C7 :
    (∀ (g : VersatileDigraph) (t hd : String) (a : EdgeArgs) (g' : VersatileDigraph),
      WF g → g.add_edge t hd a = (g', none) →
      (∃ l, g'.successors t = .ok l ∧ hd ∈ l) ∧
      (∃ l, g'.predecessors hd = .ok l ∧ t ∈ l)) ∧
    (∀ (g : VersatileDigraph) (n : String), n ∈ g.get_nodes →
      (∃ l, g.successors n = .ok l ∧ g.out_degree n = .ok l.length) ∧
      (∃ l, g.predecessors n = .ok l ∧ g.in_degree n = .ok l.length)) := by
  constructor
  · intro g t hd a g' hwf heq
    have h1 : (g.add_edge t hd a).1 = g' := by rw [heq]
    subst h1
    have ht' : t ∈ (g.add_edge t hd a).1.get_nodes :=
      (mem_get_nodes_add_edge g t hd t a).mpr (Or.inr (Or.inl rfl))
    have hh' : hd ∈ (g.add_edge t hd a).1.get_nodes :=
      (mem_get_nodes_add_edge g t hd hd a).mpr (Or.inr (Or.inr rfl))
    have hedge : hasEdge (g.add_edge t hd a).1 t hd :=
      (hasEdge_add_edge_iff hwf t hd t hd a).mpr (Or.inr ⟨rfl, rfl⟩)
    exact ⟨⟨succList _ t, successors_ok ht', hedge⟩,
      ⟨predList _ hd, predecessors_ok hh', mem_predList_iff.mpr ⟨ht', hedge⟩⟩⟩
  · intro g n hn
    exact ⟨⟨succList g n, successors_ok hn, out_degree_ok hn⟩,
      ⟨predList g n, predecessors_ok hn, in_degree_ok hn⟩⟩

/-- Witness for C7 on `add_edge("A", "B")` over the empty graph. -/
theorem claim_C7_witness :
    (WF VersatileDigraph.emptyGraph ∧
      VersatileDigraph.emptyGraph.add_edge "A" "B" {} = (gAB, none) ∧
      ((∃ l, gAB.successors "A" = .ok l ∧ "B" ∈ l) ∧
        (∃ l, gAB.predecessors "B" = .ok l ∧ "A" ∈ l))) ∧
    ("A" ∈ gAB.get_nodes ∧
      ((∃ l, gAB.successors "A" = .ok l ∧ gAB.out_degree "A" = .ok l.length) ∧
        (∃ l, gAB.predecessors "A" = .ok l ∧ gAB.in_degree "A" = .ok l.length))) :=
  ⟨⟨by decide, by decide,
      claim_C7.1 VersatileDigraph.emptyGraph "A" "B" {} gAB (by decide) (by decide)⟩,
    ⟨by decide, claim_C7.2 gAB "A" (by decide)⟩⟩

/-- C8: re-adding the same ordered edge with a second non-negative weight
succeeds both times, the second weight wins in `get_edge_weight`, and
`successors(tail)` lists the head exactly once. -/
theorem claim_C8 (g : VersatileDigraph) (t hd : String) (a₁ a₂ : EdgeArgs)
    (hwf : WF g) (h1 : 0 ≤ a₁.effWeight) (h2 : 0 ≤ a₂.effWeight)
    (_hne : a₁.effWeight ≠ a₂.effWeight) :
    (g.add_edge t hd a₁).2 = none ∧
    ((g.add_edge t hd a₁).1.add_edge t hd a₂).2 = none ∧
    ((g.add_edge t hd a₁).1.add_edge t hd a₂).1.get_edge_weight t hd =
      .ok a₂.effWeight ∧
    (∃ l, ((g.add_edge t hd a₁).1.add_edge t hd a₂).1.successors t = .ok l ∧
      l.count hd = 1) := by
  have hwf1 : WF (g.add_edge t hd a₁).1 := wf_add_edge hwf t hd a₁
  have ht2 : t ∈ ((g.add_edge t hd a₁).1.add_edge t hd a₂).1.get_nodes :=
    (mem_get_nodes_add_edge _ t hd t a₂).mpr (Or.inr (Or.inl rfl))
  have hh2 : hd ∈ ((g.add_edge t hd a₁).1.add_edge t hd a₂).1.get_nodes :=
    (mem_get_nodes_add_edge _ t hd hd a₂).mpr (Or.inr (Or.inr rfl))
  refine ⟨by rw [add_edge_snd, if_pos h1], by rw [add_edge_snd, if_pos h2], ?_, ?_⟩
  · rw [get_edge_weight_ok_iff]
    refine ⟨ht2, hh2, ?_⟩
    rw [dget_weights_add_edge hwf1, if_pos ⟨h2, rfl, rfl⟩]
  · refine ⟨succList _ t, successors_ok ht2, ?_⟩
    have hmem1 : hd ∈ succList (g.add_edge t hd a₁).1 t :=
      (hasEdge_add_edge_iff hwf t hd t hd a₁).mpr (Or.inr ⟨rfl, rfl⟩)
    rw [succList_add_edge hwf1, if_pos rfl, if_pos hmem1]
    exact List.count_eq_one_of_mem (hwf1.succ_nodup t) hmem1

/-- Witness for C8: weights 3 then 7 on the edge `A → B` of the empty graph. -/
theorem claim_C8_witness :
    (WF VersatileDigraph.emptyGraph ∧ (0 : Int) ≤ EdgeArgs.effWeight { weight := some 3 } ∧
      (0 : Int) ≤ EdgeArgs.effWeight { weight := some 7 } ∧
      EdgeArgs.effWeight { weight := some 3 } ≠ EdgeArgs.effWeight { weight := some 7 }) ∧
    ((VersatileDigraph.emptyGraph.add_edge "A" "B" { weight := some 3 }).2 = none ∧
    ((VersatileDigraph.emptyGraph.add_edge "A" "B" { weight := some 3 }).1.add_edge
      "A" "B" { weight := some 7 }).2 = none ∧
    ((VersatileDigraph.emptyGraph.add_edge "A" "B" { weight := some 3 }).1.add_edge
      "A" "B" { weight := some 7 }).1.get_edge_weight "A" "B" =
        .ok (EdgeArgs.effWeight { weight := some 7 }) ∧
    (∃ l, ((VersatileDigraph.emptyGraph.add_edge "A" "B" { weight := some 3 }).1.add_edge
      "A" "B" { weight := some 7 }).1.successors "A" = .ok l ∧ l.count "B" = 1)) :=
  ⟨⟨by decide, by decide, by decide, by decide⟩,
    claim_C8 VersatileDigraph.emptyGraph "A" "B" { weight := some 3 } { weight := some 7 }
      (by decide) (by decide) (by decide) (by decide)⟩

/-- C1 counterexample: `add_edge("A", "B", weight=-1)` on the empty graph
raises the `ValueError`, but the state afterwards is *not* the state before
the call — both endpoints were auto-created and `successors("A")` now lists
`"B"`, contrary to the claim that the graph is left exactly as it was. -/
theorem claim_C1_counterexample :
    (VersatileDigraph.emptyGraph.add_edge "A" "B" negWeightArgs).2 =
      some (.valueError "Edge weight must be positive.") ∧
    (VersatileDigraph.emptyGraph.add_edge "A" "B" negWeightArgs).1 ≠
      VersatileDigraph.emptyGraph ∧
    (VersatileDigraph.emptyGraph.add_edge "A" "B" negWeightArgs).1.get_nodes =
      ["A", "B"] ∧
    (VersatileDigraph.emptyGraph.add_edge "A" "B" negWeightArgs).1.successors "A" =
      .ok ["B"] := by
  refine ⟨by decide, by decide, by decide, by decide⟩

/-- C1 (amended): a negative-weight `add_edge` fails with the `ValueError`,
but first auto-creates the missing endpoints and records the edge-name entry,
so `successors(tail)` afterwards contains the head; only the weight table is
left unwritten — a previously absent weight entry stays absent (and previously
recorded weights are preserved). -/
theorem claim_C1_amended (g : VersatileDigraph) (t hd : String) (a : EdgeArgs)
    (hwf : WF g) (hw : a.effWeight < 0) :
    (g.add_edge t hd a).2 = some (.valueError "Edge weight must be positive.") ∧
    t ∈ (g.add_edge t hd a).1.get_nodes ∧
    hd ∈ (g.add_edge t hd a).1.get_nodes ∧
    (∃ l, (g.add_edge t hd a).1.successors t = .ok l ∧ hd ∈ l) ∧
    (dget hd (innerD t g.edge_weights) = none →
      (g.add_edge t hd a).1.get_edge_weight t hd =
        .error (.keyError "The specified edge does not exist in the graph")) ∧
    (∀ x y (w : Int), g.get_edge_weight x y = .ok w →
      (g.add_edge t hd a).1.get_edge_weight x y = .ok w) := by
  have hnw : ¬ 0 ≤ a.effWeight := not_le.mpr hw
  have ht : t ∈ (g.add_edge t hd a).1.get_nodes :=
    (mem_get_nodes_add_edge g t hd t a).mpr (Or.inr (Or.inl rfl))
  have hh : hd ∈ (g.add_edge t hd a).1.get_nodes :=
    (mem_get_nodes_add_edge g t hd hd a).mpr (Or.inr (Or.inr rfl))
  refine ⟨by rw [add_edge_snd, if_neg hnw], ht, hh,
    ⟨succList _ t, successors_ok ht,
      (hasEdge_add_edge_iff hwf t hd t hd a).mpr (Or.inr ⟨rfl, rfl⟩)⟩, ?_, ?_⟩
  · intro hnone
    refine get_edge_weight_absent ht hh ?_
    rw [dget_weights_add_edge hwf, if_neg (fun hc => hnw hc.1), hnone]
  · intro x y w hxy
    obtain ⟨hx, hy, hsome⟩ := get_edge_weight_ok_iff.mp hxy
    rw [get_edge_weight_ok_iff]
    refine ⟨(mem_get_nodes_add_edge g t hd x a).mpr (Or.inl hx),
      (mem_get_nodes_add_edge g t hd y a).mpr (Or.inl hy), ?_⟩
    rw [dget_weights_add_edge hwf, if_neg (fun hc => hnw hc.1), hsome]

/-- Witness for C1 (amended) at `add_edge("A", "B", weight=-1)` on the empty
graph. -/
theorem claim_C1_witness :
    (WF VersatileDigraph.emptyGraph ∧ negWeightArgs.effWeight < 0) ∧
    ((VersatileDigraph.emptyGraph.add_edge "A" "B" negWeightArgs).2 =
      some (.valueError "Edge weight must be positive.") ∧
    "A" ∈ (VersatileDigraph.emptyGraph.add_edge "A" "B" negWeightArgs).1.get_nodes ∧
    "B" ∈ (VersatileDigraph.emptyGraph.add_edge "A" "B" negWeightArgs).1.get_nodes ∧
    (∃ l, (VersatileDigraph.emptyGraph.add_edge "A" "B" negWeightArgs).1.successors "A" =
      .ok l ∧ "B" ∈ l) ∧
    (dget "B" (innerD "A" VersatileDigraph.emptyGraph.edge_weights) = none →
      (VersatileDigraph.emptyGraph.add_edge "A" "B" negWeightArgs).1.get_edge_weight
        "A" "B" = .error (.keyError "The specified edge does not exist in the graph")) ∧
    (∀ x y (w : Int), VersatileDigraph.emptyGraph.get_edge_weight x y = .ok w →
      (VersatileDigraph.emptyGraph.add_edge "A" "B" negWeightArgs).1.get_edge_weight
        x y = .ok w)) :=
  ⟨⟨by decide, by decide⟩,
    claim_C1_amended VersatileDigraph.emptyGraph "A" "B" negWeightArgs
      (by decide) (by decide)⟩

/-- C3 counterexample: on the empty graph, the DAG variant's
`add_edge("X", "Y")` does *not* succeed and auto-create the endpoints — the
reachability pre-check calls `successors("Y")` on the absent head and raises
`KeyError`, leaving the graph empty. -/
theorem claim_C3_counterexample :
    DAG.add_edge VersatileDigraph.emptyGraph "X" "Y" {} =
      (VersatileDigraph.emptyGraph,
        some (.keyError "Node Y is not present in the graph.")) ∧
    (DAG.add_edge VersatileDigraph.emptyGraph "X" "Y" {}).1.get_nodes = [] := by
  refine ⟨by decide, by decide⟩

/-- C3 (amended): the base-class `add_edge` auto-creates absent endpoints with
the caller-supplied or zero default values (and `add_edge("X","Y")` on the
empty base graph yields nodes `["X", "Y"]` with value 0 each); the DAG variant
delegates to that insertion only on a negative reachability answer — with the
head present this covers an absent tail, which is auto-created, but with the
head absent (and distinct from the tail) the reachability check itself fails
with `KeyError` and nothing is created. -/
theorem claim_C3_amended :
    (∀ (g : VersatileDigraph) (t hd : String) (a : EdgeArgs), WF g → 0 ≤ a.effWeight →
      t ∉ g.get_nodes ∨ hd ∉ g.get_nodes →
      (g.add_edge t hd a).2 = none ∧
      t ∈ (g.add_edge t hd a).1.get_nodes ∧ hd ∈ (g.add_edge t hd a).1.get_nodes ∧
      (t ∉ g.get_nodes →
        (g.add_edge t hd a).1.get_node_value t = .ok a.start_node_value) ∧
      (hd ∉ g.get_nodes → hd ≠ t →
        (g.add_edge t hd a).1.get_node_value hd = .ok a.end_node_value)) ∧
    ((VersatileDigraph.emptyGraph.add_edge "X" "Y" {}).2 = none ∧
      (VersatileDigraph.emptyGraph.add_edge "X" "Y" {}).1.get_nodes = ["X", "Y"] ∧
      (VersatileDigraph.emptyGraph.add_edge "X" "Y" {}).1.get_node_value "X" = .ok 0 ∧
      (VersatileDigraph.emptyGraph.add_edge "X" "Y" {}).1.get_node_value "Y" = .ok 0) ∧
    (∀ (g : VersatileDigraph) (t hd : String) (a : EdgeArgs), WF g →
      hd ∈ g.get_nodes → ¬ Reaches g hd t →
      DAG.add_edge g t hd a = g.add_edge t hd a) ∧
    (∀ (g : VersatileDigraph) (t hd : String) (a : EdgeArgs), WF g →
      hd ∉ g.get_nodes → hd ≠ t →
      DAG.add_edge g t hd a =
        (g, some (.keyError ("Node " ++ hd ++ " is not present in the graph.")))) ∧
    (∀ (g : VersatileDigraph) (t hd : String) (a : EdgeArgs), WF g → 0 ≤ a.effWeight →
      t ∉ g.get_nodes → hd ∈ g.get_nodes →
      (DAG.add_edge g t hd a).2 = none ∧
      t ∈ (DAG.add_edge g t hd a).1.get_nodes ∧
      (DAG.add_edge g t hd a).1.get_node_value t = .ok a.start_node_value) := by
  have base : ∀ (g : VersatileDigraph) (t hd : String) (a : EdgeArgs), WF g →
      0 ≤ a.effWeight →
      (g.add_edge t hd a).2 = none ∧
      t ∈ (g.add_edge t hd a).1.get_nodes ∧ hd ∈ (g.add_edge t hd a).1.get_nodes ∧
      (t ∉ g.get_nodes →
        (g.add_edge t hd a).1.get_node_value t = .ok a.start_node_value) ∧
      (hd ∉ g.get_nodes → hd ≠ t →
        (g.add_edge t hd a).1.get_node_value hd = .ok a.end_node_value) := by
    intro g t hd a hwf hw
    have ht : t ∈ (g.add_edge t hd a).1.get_nodes :=
      (mem_get_nodes_add_edge g t hd t a).mpr (Or.inr (Or.inl rfl))
    have hh : hd ∈ (g.add_edge t hd a).1.get_nodes :=
      (mem_get_nodes_add_edge g t hd hd a).mpr (Or.inr (Or.inr rfl))
    have hvals : (g.add_edge t hd a).1.node_values = (autoCreated g t hd a).node_values :=
      add_edge_fst_node_values g t hd a
    refine ⟨by rw [add_edge_snd, if_pos hw], ht, hh, ?_, ?_⟩
    · intro htg
      rw [get_node_value_eq ht, hvals, dget_node_values_autoCreated,
        if_neg htg, if_pos rfl]
      rfl
    · intro hhg hht
      rw [get_node_value_eq hh, hvals, dget_node_values_autoCreated,
        if_neg hhg, if_neg hht, if_pos rfl]
      rfl
  refine ⟨?_, ⟨by decide, by decide, by decide, by decide⟩, ?_, ?_, ?_⟩
  · intro g t hd a hwf hw _
    exact base g t hd a hwf hw
  · intro g t hd a hwf hhd hnr
    exact dag_add_edge_of_not_reaches hwf a hhd hnr
  · intro g t hd a hwf hhd hne
    exact dag_add_edge_head_absent a hhd hne
  · intro g t hd a hwf hw htg hhd
    have hne : hd ≠ t := fun hc => htg (hc ▸ hhd)
    have hnr : ¬ Reaches g hd t := by
      intro hr
      exact htg (Reaches.dest_mem hwf hr hne)
    rw [dag_add_edge_of_not_reaches hwf a hhd hnr]
    obtain ⟨h1, h2, -, h4, -⟩ := base g t hd a hwf hw
    exact ⟨h1, h2, h4 htg⟩

/-- Witness for C3 (amended): the base-graph auto-creation clause at
`add_edge("T", "H", start_node_value=2)` on the graph holding only `H`, the
delegation clause there, and the DAG `KeyError` clause on the empty graph. -/
theorem claim_C3_witness :
    (WF (VersatileDigraph.emptyGraph.add_node "H" 0) ∧
      (0 : Int) ≤ EdgeArgs.effWeight { start_node_value := (2 : Int) } ∧
      ("T" ∉ (VersatileDigraph.emptyGraph.add_node "H" 0).get_nodes ∨
        "H" ∉ (VersatileDigraph.emptyGraph.add_node "H" 0).get_nodes) ∧
      (((VersatileDigraph.emptyGraph.add_node "H" 0).add_edge "T" "H"
          { start_node_value := (2 : Int) }).2 = none ∧
        "T" ∈ ((VersatileDigraph.emptyGraph.add_node "H" 0).add_edge "T" "H"
          { start_node_value := (2 : Int) }).1.get_nodes ∧
        "H" ∈ ((VersatileDigraph.emptyGraph.add_node "H" 0).add_edge "T" "H"
          { start_node_value := (2 : Int) }).1.get_nodes ∧
        ("T" ∉ (VersatileDigraph.emptyGraph.add_node "H" 0).get_nodes →
          ((VersatileDigraph.emptyGraph.add_node "H" 0).add_edge "T" "H"
            { start_node_value := (2 : Int) }).1.get_node_value "T" =
              .ok (EdgeArgs.start_node_value { start_node_value := (2 : Int) })) ∧
        ("H" ∉ (VersatileDigraph.emptyGraph.add_node "H" 0).get_nodes → "H" ≠ "T" →
          ((VersatileDigraph.emptyGraph.add_node "H" 0).add_edge "T" "H"
            { start_node_value := (2 : Int) }).1.get_node_value "H" =
              .ok (EdgeArgs.end_node_value { start_node_value := (2 : Int) })))) ∧
    (WF VersatileDigraph.emptyGraph ∧ ("Y" : String) ∉ VersatileDigraph.emptyGraph.get_nodes ∧
      ("Y" : String) ≠ "X" ∧
      DAG.add_edge VersatileDigraph.emptyGraph "X" "Y" {} =
        (VersatileDigraph.emptyGraph,
          some (.keyError ("Node " ++ "Y" ++ " is not present in the graph.")))) :=
  ⟨⟨by decide, by decide, by decide,
      claim_C3_amended.1 (VersatileDigraph.emptyGraph.add_node "H" 0) "T" "H"
        { start_node_value := (2 : Int) } (by decide) (by decide) (by decide)⟩,
    ⟨by decide, by decide, by decide,
      claim_C3_amended.2.2.2.1 VersatileDigraph.emptyGraph "X" "Y" {}
        (by decide) (by decide) (by decide)⟩⟩

/-- C4: for every well-formed acyclic graph, `top_sort()` returns a
permutation of the nodes in which every edge's tail appears strictly before
its head; for every graph containing a directed cycle, `top_sort()` fails
with the cycle `ValueError`. -/
theorem claim_C4 (g : VersatileDigraph) (hwf : WF g) :
    (Acyclic g → ∃ l, SortableDigraph.top_sort g = .ok l ∧ l.Perm g.get_nodes ∧
      ∀ u v, hasEdge g u v → ∃ (i j : Nat) (hi : i < l.length) (hj : j < l.length),
        i < j ∧ l.get ⟨i, hi⟩ = u ∧ l.get ⟨j, hj⟩ = v) ∧
    (¬ Acyclic g → SortableDigraph.top_sort g =
      .error (.valueError "Graph has at least one cycle, topological sort not possible")) := by
  obtain ⟨res, heq, hA, hnd, hD, hE⟩ := top_sort_run hwf
  constructor
  · intro hac
    have hall := all_mem_of_acyclic hac hD
    have hperm : res.Perm g.get_nodes :=
      List.Subperm.antisymm (hnd.subperm hA) (hwf.nodes_nodup.subperm hall)
    have hlen : res.length = g.get_nodes.length := hperm.length_eq
    refine ⟨res, ?_, hperm, ?_⟩
    · rw [heq, if_neg (fun hc => hc hlen)]
    · intro u v he
      have hvres : v ∈ res := hall v (hwf.succ_mem he)
      have hj : res.indexOf v < res.length := List.indexOf_lt_length.mpr hvres
      have hgetv : res.get ⟨res.indexOf v, hj⟩ = v := by
        simp [List.get_eq_getElem, List.getElem_indexOf]
      have hu : u ∈ predList g v := mem_predList_iff.mpr ⟨hwf.tail_mem he, he⟩
      have htake := hE (res.indexOf v) hj u (by rw [hgetv]; exact hu)
      obtain ⟨i, hilen, hij, hgetu⟩ := mem_take_exists_getElem htake
      exact ⟨i, res.indexOf v, hilen, hj, hij, hgetu, hgetv⟩
  · intro hnac
    have hlen : res.length ≠ g.get_nodes.length := by
      intro hc
      exact cyclic_not_complete hwf hnac hA hnd hE hc
    rw [heq, if_pos hlen]

/-- Witness for C4 on the diamond DAG (where `top_sort` returns
`["A", "B", "C", "D"]`). -/
theorem claim_C4_witness :
    WF gDiamond ∧
    SortableDigraph.top_sort gDiamond = .ok ["A", "B", "C", "D"] ∧
    ((Acyclic gDiamond →
      ∃ l, SortableDigraph.top_sort gDiamond = .ok l ∧ l.Perm gDiamond.get_nodes ∧
        ∀ u v, hasEdge gDiamond u v →
          ∃ (i j : Nat) (hi : i < l.length) (hj : j < l.length),
            i < j ∧ l.get ⟨i, hi⟩ = u ∧ l.get ⟨j, hj⟩ = v) ∧
    (¬ Acyclic gDiamond → SortableDigraph.top_sort gDiamond =
      .error (.valueError "Graph has at least one cycle, topological sort not possible"))) :=
  ⟨by decide, by decide, claim_C4 gDiamond (by decide)⟩

/-- C6 counterexample: on the cyclic graph `A → B → A`, `dfs("A")` returns
`["B"]`, yet `A` itself is reachable from `A` by following at least one
outgoing edge (`A → B → A`) — so the returned sequence does *not* contain
exactly the nodes reachable by at least one edge, as the claim (combined with
its own "never contains the start" clause) would require. -/
theorem claim_C6_counterexample :
    TraversableDigraph.dfs gCycleAB (some "A") = .ok ["B"] ∧
    (∃ w, hasEdge gCycleAB "A" w ∧ Reaches gCycleAB w "A") ∧
    "A" ∉ (["B"] : List String) := by
  refine ⟨by decide,
    ⟨"B", by decide,
      Reaches.step (show hasEdge gCycleAB "B" "A" by decide) (Reaches.refl "A")⟩,
    by decide⟩

/-- C6 (amended): for every graph (cyclic ones included) and start node in the
graph, `dfs(start)` terminates and returns a duplicate-free sequence that
never contains the start node and contains exactly the nodes *other than the
start* reachable from it by following at least one outgoing edge, and the
sequence is exactly the spec's pre-order visit sequence (successors explored
in outgoing-edge insertion order) with the start node filtered out. -/
theorem claim_C6_amended (g : VersatileDigraph) (start : String)
    (hwf : WF g) (hs : start ∈ g.get_nodes) :
    ∃ l, TraversableDigraph.dfs g (some start) = .ok l ∧
      l = (specPreorder g start).filter (fun x => x != start) ∧
      l.Nodup ∧ start ∉ l ∧
      (∀ u, u ∈ l ↔ (u ≠ start ∧ ∃ w, hasEdge g start w ∧ Reaches g w u)) := by
  obtain ⟨v', r', heq, hsub, hvn, hnd, hrnd, hrv, hstart, hreach, hclose, hR⟩ :=
    dfsVisit_spec hwf start (g.get_nodes.length + 1) start [] [] hs (by simp)
      List.nodup_nil List.nodup_nil (by simp) (by simp)
  have horder :=
    dfsVisit_specPreorder start (g.get_nodes.length + 1) start [] [] v' r' heq
  refine ⟨r', ?_, horder.2.symm, hrnd, ?_, ?_⟩
  · simp only [TraversableDigraph.dfs, TraversableDigraph.dfsFrom, heq,
      Except.bind, Bind.bind, Monad.toBind, pure, Except.pure]
  · intro hc
    rcases (hR start).mp hc with h | ⟨-, -, h⟩
    · simp at h
    · exact h rfl
  · intro u
    rw [hR u]
    constructor
    · rintro (h | ⟨huv, -, hus⟩)
      · simp at h
      · refine ⟨hus, ?_⟩
        rcases hreach u huv with h | h
        · simp at h
        · cases h with
          | refl => exact absurd rfl hus
          | step he hr => exact ⟨_, he, hr⟩
    · rintro ⟨hus, w, hw, hr⟩
      have hcl : ∀ x ∈ v', ∀ y, hasEdge g x y → y ∈ v' :=
        fun x hx y hy => hclose x hx (by simp) y hy
      exact Or.inr ⟨mem_of_reaches_closed hcl (Reaches.step hw hr) hstart,
        by simp, hus⟩

/-- Witness for C6 (amended) on the diamond graph from `"A"`: the spec's
pre-order from `"A"` is `["A", "B", "D", "C"]`, so the ordering clause pins
the returned sequence to the depth-first `["B", "D", "C"]` — a reordering
such as the breadth-first `["B", "C", "D"]` is excluded. -/
theorem claim_C6_witness :
    (WF gDiamond ∧ "A" ∈ gDiamond.get_nodes ∧
      specPreorder gDiamond "A" = ["A", "B", "D", "C"] ∧
      (specPreorder gDiamond "A").filter (fun x => x != "A") = ["B", "D", "C"] ∧
      TraversableDigraph.dfs gDiamond (some "A") = .ok ["B", "D", "C"]) ∧
    (∃ l, TraversableDigraph.dfs gDiamond (some "A") = .ok l ∧
      l = (specPreorder gDiamond "A").filter (fun x => x != "A") ∧
      l.Nodup ∧ "A" ∉ l ∧
      (∀ u, u ∈ l ↔ (u ≠ "A" ∧ ∃ w, hasEdge gDiamond "A" w ∧ Reaches gDiamond w u))) :=
  ⟨⟨by decide, by decide, by decide, by decide, by decide⟩,
    claim_C6_amended gDiamond "A" (by decide) (by decide)⟩

/-- Witness for C10: the absent node `Z` on the diamond graph. -/
theorem claim_C10_witness :
    "Z" ∉ gDiamond.get_nodes ∧
    (TraversableDigraph.dfs gDiamond (some "Z") =
      .error (.keyError ("Node " ++ "Z" ++ " is not present in the graph.")) ∧
    TraversableDigraph.bfs gDiamond (some "Z") =
      .error (.keyError ("Node " ++ "Z" ++ " is not present in the graph."))) :=
  ⟨by decide, claim_C10 gDiamond "Z" (by decide)⟩

end StudentCode
